import Mathlib

/-!
A shallow embedding of the kayveedb core (`src/lib/kayveedb.go`, with
`src/kayveedb.go` consulted for the functions only present there, namely
`ListKeys`/`traverse`), together with theorems settling the frozen claims
about it.

Modelling conventions, stated once here and referenced below:

* Go `string` keys are byte strings, modelled as `List Nat`; Go's `<` on
  strings is byte-wise lexicographic order, modelled by `keyLt`.
* Go slices are Lean lists.  Indexing `s[i]` panics unless `0 ≤ i < len(s)`;
  slicing `s[:i]` / `s[i:]` panics unless `0 ≤ i ≤ len(s)` (capacity is
  modelled as equal to length; every panic relied on below is a
  length-checked index, or a slice of a fresh nil slice whose capacity
  really is 0, so spare capacity never changes the verdict).
  A Go runtime panic is the error `Err.panic`; it unwinds the whole call.
* Go `*KeyValue` is `Option KeyValue`; a nil dereference is `Err.panic`.
* Node objects are mutable and aliased (the cache stores the same pointer
  that the tree code mutates), so nodes live in an explicit heap
  `List (Nat × Node)` addressed by allocation id; Go pointer variables
  hold ids.
* The XChaCha20-Poly1305 envelope is modelled symbolically: `Seal` under
  key `k` and nonce `n` is the constructor `Val.sealed k n ·` (Seal is
  injective for fixed key/nonce, and its output is 16 bytes longer than
  its input, hence never equal to any plaintext, which the free
  constructor captures), and `Open` inverts it exactly when key and nonce
  match, failing otherwise (the Poly1305 tag check).  `NewX` rejects keys
  that are not 32 bytes (an error value); `Seal`/`Open` panic when the
  nonce is not 24 bytes.
* The gob layer is idealised as a node store that round-trips a `Node`
  value exactly (the code's intent at every call site); `writeNode`
  appends a snapshot of the node at a fresh end-of-file offset and caches
  the live object, `readNode` prefers the cache and otherwise decodes a
  fresh object from the snapshot.
* File paths resolve (`LoadDB`/`LoadLog` open their files), and the log
  decoder reads the snapshot of the log taken when replay starts; records
  appended *during* replay are modelled as going to the end of the file
  without being re-decoded.  Both choices are generous to the code.
* Locks, fsync and concurrency are not modelled; all operations are
  sequential.  `logOperation` models append-then-fsync as appending to
  the `log` list.
-/

namespace KayveeDB

/-- Byte-string key (a Go `string`). -/
abbrev Key := List Nat

/-- Stored values, with the AEAD envelope symbolic (see the header note). -/
inductive Val where
  | bytes (data : List Nat)
  | sealed (ekey : List Nat) (nonce : List Nat) (v : Val)
deriving DecidableEq, Repr

/-- Go `KeyValue{Key string; Value []byte}`. -/
structure KeyValue where
  key : Key
  value : Val
deriving DecidableEq, Repr

/-- Go `Node`; `keys []*KeyValue` holds possibly-nil pointers, `numKeys` is a
Go `int` (it is decremented and is never re-validated against `len(keys)`). -/
structure Node where
  keys : List (Option KeyValue)
  children : List Int
  isLeaf : Bool
  numKeys : Int
  offset : Int
deriving DecidableEq, Repr

/-- Go `LogEntry{Operation string; Key string; Value []byte}` (nil value is
`none`). -/
structure LogEntry where
  operation : String
  key : Key
  value : Option Val
deriving DecidableEq, Repr

/-- Failures that abort a model run: a Go runtime panic, a decode failure
surfaced where the code checks it, or model fuel exhaustion. -/
inductive Err where
  | panic
  | decodeErr
  | fuel
deriving DecidableEq, Repr

/-- Go error values returned (not panicked) by the engine's methods. -/
inductive GErr where
  | notFound
  | cryptoErr
  | ioErr
deriving DecidableEq, Repr

/-- Go string comparison `a < b`: byte-wise lexicographic. -/
def keyLt : Key → Key → Bool
  | [], [] => false
  | [], _ :: _ => true
  | _ :: _, [] => false
  | a :: as, b :: bs => if a < b then true else if b < a then false else keyLt as bs

/-- Go `s[i]` on a slice: length-checked indexing, panic otherwise. -/
def idxE (l : List α) (i : Int) : Except Err α :=
  if h : 0 ≤ i ∧ i.toNat < l.length then .ok (l.get ⟨i.toNat, h.2⟩) else .error .panic

/-- Go `s[i] = a`: length-checked in-place update. -/
def setE (l : List α) (i : Int) (a : α) : Except Err (List α) :=
  if 0 ≤ i ∧ i.toNat < l.length then .ok (l.set i.toNat a) else .error .panic

/-- Go `s[:i]` (capacity modelled as length). -/
def sliceTo (l : List α) (i : Int) : Except Err (List α) :=
  if 0 ≤ i ∧ i ≤ (l.length : Int) then .ok (l.take i.toNat) else .error .panic

/-- Go `s[i:]` (capacity modelled as length). -/
def sliceFrom (l : List α) (i : Int) : Except Err (List α) :=
  if 0 ≤ i ∧ i ≤ (l.length : Int) then .ok (l.drop i.toNat) else .error .panic

/-- Dereference a `*KeyValue`; nil panics. -/
def derefE : Option α → Except Err α
  | none => .error .panic
  | some a => .ok a

/-- `encrypt` (`chacha20poly1305.NewX` + `Seal`): a wrong-length key is an
error value, a wrong-length nonce a panic, otherwise the symbolic seal. -/
def encrypt (data : Val) (ekey nonce : List Nat) : Except Err (Option Val) :=
  if ekey.length ≠ 32 then .ok none
  else if nonce.length ≠ 24 then .error .panic
  else .ok (some (.sealed ekey nonce data))

/-- `decrypt` (`NewX` + `Open`): `none` is a Go error value (bad key length
or tag mismatch); a wrong-length nonce panics. -/
def decrypt (data : Val) (ekey nonce : List Nat) : Except Err (Option Val) :=
  if ekey.length ≠ 32 then .ok none
  else if nonce.length ≠ 24 then .error .panic
  else match data with
    | .sealed k n inner => .ok (if k = ekey ∧ n = nonce then some inner else none)
    | .bytes _ => .ok none

/-! ### The LRU cache (`Cache`), polymorphic in what it stores

The engine stores node pointers (heap ids) in it; claim C10 is settled on
this model directly.  The flush callback is modelled by recording each
invocation in `flushes` (the engine wires it to a disk write; see
`writeFlush` below). -/

/-- `Cache`: `store` is the offset-keyed map, `order` the access-order list
with the most recently used at the head, `size` the capacity, `flushes` the
record of flush-callback invocations `(offset, node, dirty-node-value)`. -/
structure Cache (α : Type) where
  store : List (Int × α × Bool)
  order : List Int
  size : Int
  flushes : List (Int × α)
deriving Repr

/-- `NewCache`. -/
def NewCache (α : Type) (size : Int) : Cache α :=
  { store := [], order := [], size := size, flushes := [] }

/-- Association-list lookup (first match). -/
def findA [DecidableEq κ] (l : List (κ × α)) (k : κ) : Option α :=
  match l with
  | [] => none
  | (k', a) :: rest => if k' = k then some a else findA rest k

/-- Association-list update of the first match (no-op when absent). -/
def setA [DecidableEq κ] (l : List (κ × α)) (k : κ) (a : α) : List (κ × α) :=
  match l with
  | [] => []
  | (k', a') :: rest => if k' = k then (k', a) :: rest else (k', a') :: setA rest k a

/-- Association-list removal of the first match. -/
def eraseA [DecidableEq κ] (l : List (κ × α)) (k : κ) : List (κ × α) :=
  match l with
  | [] => []
  | (k', a') :: rest => if k' = k then rest else (k', a') :: eraseA rest k

/-- `Cache.Get`: on a hit, move the entry to the front of the order list. -/
def cacheGet (c : Cache α) (off : Int) : Option α × Cache α :=
  match findA c.store off with
  | none => (none, c)
  | some (a, _) => (some a, { c with order := off :: c.order.erase off })

/-- `Cache.evict`: flush the least recently used entry if dirty, then drop it.
An empty order list, or an order entry missing from the map, is a silent
return (as in the source). -/
def cacheEvict (c : Cache α) : Cache α :=
  match c.order.getLast? with
  | none => c
  | some off =>
    match findA c.store off with
    | none => c
    | some (a, dirty) =>
      { c with
        order := c.order.dropLast
        store := eraseA c.store off
        flushes := if dirty then c.flushes ++ [(off, a)] else c.flushes }

/-- `Cache.Put`. -/
def cachePut (c : Cache α) (off : Int) (a : α) (dirty : Bool) : Cache α :=
  match findA c.store off with
  | some _ =>
    { c with store := setA c.store off (a, dirty), order := off :: c.order.erase off }
  | none =>
    let c := if 0 < c.size ∧ c.size ≤ (c.order.length : Int) then cacheEvict c else c
    { c with order := off :: c.order, store := (off, a, dirty) :: c.store }

/-! ### Engine state -/

/-- The whole engine state: node heap (Go pointers are ids into it), the
database file as the list of appended node snapshots, the end-of-file
offset allocator, the root-offset register written by `writeRoot`, the node
cache (holding heap ids), the operation-log file contents, the root pointer
`b.root`, the minimum degree `b.t`, and the HMAC model `hk` (keyed
HMAC-SHA-256 rendered as hex; modelled as an arbitrary function supplied at
construction, instantiated injectively in concrete runs). -/
structure St where
  heap : List (Nat × Node)
  nextId : Nat
  disk : List (Int × Node)
  nextOff : Int
  rootPtr : Option Int
  cache : Cache Nat
  log : List LogEntry
  rootId : Option Nat
  t : Int
  hk : Key → Key

/-- Read a node object through a Go pointer; a dangling id is a nil
dereference. -/
def heapGetE (st : St) (id : Nat) : Except Err Node :=
  match findA st.heap id with
  | none => .error .panic
  | some n => .ok n

/-- Mutate the node object behind a pointer. -/
def heapSet (st : St) (id : Nat) (n : Node) : St :=
  { st with heap := setA st.heap id n }

/-- Allocate a fresh node object. -/
def alloc (st : St) (n : Node) : St × Nat :=
  ({ st with heap := st.heap ++ [(st.nextId, n)], nextId := st.nextId + 1 }, st.nextId)

/-- The flush callback `NewBTree` wires into the cache: encode the evicted
node over its offset in the database file (modelled as replacing that
offset's snapshot). -/
def writeFlush (st : St) (off : Int) (id : Nat) : St :=
  match findA st.heap id with
  | none => st
  | some n => { st with disk := setA st.disk off n }

/-- `Cache.evict` as wired by the engine: the flush callback is
`writeFlush`; bookkeeping as in the source. -/
def engineEvict (st : St) : St :=
  match st.cache.order.getLast? with
  | none => st
  | some off =>
    match findA st.cache.store off with
    | none => st
    | some (id, dirty) =>
      let st := if dirty then writeFlush st off id else st
      { st with cache := { st.cache with
          order := st.cache.order.dropLast
          store := eraseA st.cache.store off } }

/-- `Cache.Put` as invoked by the engine: identical bookkeeping, with the
flush callback performed by `writeFlush`. -/
def enginePut (st : St) (off : Int) (id : Nat) (dirty : Bool) : St :=
  match findA st.cache.store off with
  | some _ =>
    { st with cache := { st.cache with
        store := setA st.cache.store off (id, dirty)
        order := off :: st.cache.order.erase off } }
  | none =>
    let st :=
      if 0 < st.cache.size ∧ st.cache.size ≤ (st.cache.order.length : Int) then
        engineEvict st
      else st
    { st with cache := { st.cache with
        order := off :: st.cache.order
        store := (off, id, dirty) :: st.cache.store } }

/-- `writeNode`: append the node's current value at the end of the database
file, cache the live object as dirty, return the new offset.  (The model's
node store is total; the source's gob error return is always nil here.) -/
def writeNode (st : St) (id : Nat) : St × Int :=
  match findA st.heap id with
  | none => (st, 0)
  | some n =>
    let off := st.nextOff
    let st := { st with disk := st.disk ++ [(off, n)], nextOff := st.nextOff + 1 }
    (enginePut st off id true, off)

/-- `readNode`: cache first (a hit returns the live object), else decode a
fresh object from the snapshot and cache it clean; `none` is the Go error
return (open/seek/decode failure). -/
def readNode (st : St) (off : Int) : St × Option Nat :=
  match cacheGet st.cache off with
  | (some id, c) => ({ st with cache := c }, some id)
  | (none, _) =>
    match findA st.disk off with
    | none => (st, none)
    | some n =>
      let (st, id) := alloc st n
      (enginePut st off id false, some id)

/-- `logOperation`: append a record and fsync, unless `skipLog`. -/
def logOperation (st : St) (op : String) (key : Key) (value : Option Val)
    (skipLog : Bool) : St :=
  if skipLog then st else { st with log := st.log ++ [⟨op, key, value⟩] }

/-! ### The B-tree engine -/

/-- `splitChild(parent, i, fullChild)`, line by line.  (The ignored gob
error return of `writeNode` is always nil in the model, so the only way
this function can fail is a runtime panic — which, as proved below, it
always does.) -/
def splitChild (st : St) (parentId : Nat) (i : Int) (childId : Nat) :
    Except Err St := do
  let t := st.t
  let fullChild ← heapGetE st childId
  let hiKeys ← sliceFrom fullChild.keys t
  let hiKids ← sliceFrom fullChild.children t
  let (st, newId) := alloc st
    { isLeaf := fullChild.isLeaf, keys := hiKeys, children := hiKids,
      numKeys := t - 1, offset := 0 }
  let (st, newOff) := writeNode st newId
  let loKeys ← sliceTo fullChild.keys (t - 1)
  let loKids ← sliceTo fullChild.children t
  let fullChild ← heapGetE st childId
  let st := heapSet st childId
    { fullChild with keys := loKeys, children := loKids, numKeys := t - 1 }
  let (st, _) := writeNode st childId
  let parent ← heapGetE st parentId
  let pc1 ← sliceTo parent.children (i + 1)
  let pc2 ← sliceFrom parent.children (i + 1)
  let st := heapSet st parentId { parent with children := pc1 ++ [newOff] ++ pc2 }
  let parent ← heapGetE st parentId
  let pk1 ← sliceTo parent.keys i
  let fc ← heapGetE st childId
  let median ← idxE fc.keys (t - 1)
  let pk2 ← sliceFrom parent.keys i
  let st := heapSet st parentId
    { parent with keys := pk1 ++ [median] ++ pk2, numKeys := parent.numKeys + 1 }
  let (st, _) := writeNode st parentId
  .ok st

/-- The `insertNonFull` leaf shift loop
(`for i >= 0 && kv.Key < keys[i].Key { keys[i+1] = keys[i]; i-- }`); the
argument is the Go index plus one, the result is the updated slice and the
final index. -/
def leafLoopIns (keys : List (Option KeyValue)) (kv : KeyValue) :
    Nat → Except Err (List (Option KeyValue) × Int)
  | 0 => .ok (keys, -1)
  | n + 1 => do
    let okv ← idxE keys (n : Int)
    let kvi ← derefE okv
    if keyLt kv.key kvi.key then do
      let keys' ← setE keys ((n : Int) + 1) okv
      leafLoopIns keys' kv n
    else .ok (keys, (n : Int))

/-- The `insertNonFull` internal descent loop
(`for i >= 0 && kv.Key < keys[i].Key { i-- }`); argument is the Go index
plus one, result the final index. -/
def downScan (keys : List (Option KeyValue)) (key : Key) : Nat → Except Err Int
  | 0 => .ok (-1)
  | n + 1 => do
    let kvi ← idxE keys (n : Int) >>= derefE
    if keyLt key kvi.key then downScan keys key n else .ok (n : Int)

/-- The upward scan `for i < numKeys && key > keys[i].Key { i++ }` used by
`search` and `Delete`, starting at `i` with `r` iterations remaining. -/
def upScanGo (keys : List (Option KeyValue)) (key : Key) :
    Nat → Nat → Except Err Nat
  | i, 0 => .ok i
  | i, r + 1 => do
    let kvi ← idxE keys (i : Int) >>= derefE
    if keyLt kvi.key key then upScanGo keys key (i + 1) r else .ok i

/-- The upward scan from index 0, bounded by `numKeys`. -/
def upScan (keys : List (Option KeyValue)) (key : Key) (numKeys : Int) :
    Except Err Nat :=
  upScanGo keys key 0 numKeys.toNat

/-- `insertNonFull(node, kv)`.  A failed child read prints and returns
silently (the state so far is kept); a panic unwinds. -/
def insertNonFull (fuel : Nat) (st : St) (id : Nat) (kv : KeyValue) :
    Except Err St :=
  match fuel with
  | 0 => .error .fuel
  | f + 1 => do
    let node ← heapGetE st id
    if node.isLeaf then do
      let ks := node.keys ++ [none]
      let i0 : Int := node.numKeys - 1
      let (ks, iFin) ← if i0 < 0 then .ok (ks, i0) else leafLoopIns ks kv (i0 + 1).toNat
      let ks2 ← setE ks (iFin + 1) (some kv)
      let st := heapSet st id { node with keys := ks2, numKeys := node.numKeys + 1 }
      let (st, _) := writeNode st id
      .ok st
    else do
      let i0 : Int := node.numKeys - 1
      let i ← if i0 < 0 then .ok i0 else downScan node.keys kv.key (i0 + 1).toNat
      let i := i + 1
      let off ← idxE node.children i
      match readNode st off with
      | (st, none) => .ok st
      | (st, some cid) => do
        let child ← heapGetE st cid
        let (st, i) ←
          if child.numKeys = 2 * st.t - 1 then do
            let st ← splitChild st id i cid
            let node ← heapGetE st id
            let kvi ← idxE node.keys i >>= derefE
            pure (st, if keyLt kvi.key kv.key then i + 1 else i)
          else pure (st, i)
        let node ← heapGetE st id
        let off2 ← idxE node.children i
        match readNode st off2 with
        | (st, none) => .ok st
        | (st, some cid2) => insertNonFull f st cid2 kv

/-- `writeRoot`: write the root node; the root offset is then encoded over
the start of the database file, modelled as the `rootPtr` register (the
actual byte overwrite of the first node is not needed by any claim and is
noted in the header). -/
def writeRoot (st : St) : Except Err St :=
  match st.rootId with
  | none => .error .panic
  | some rid =>
    let (st, off) := writeNode st rid
    .ok { st with rootPtr := some off }

/-- `Insert(key, value, encryptionKey, nonce)`.  Note the absence of an
`else`: when the root was full, after the split-and-insert into the new
root the code falls through and inserts again via the old root local. -/
def Insert (fuel : Nat) (st : St) (key : Key) (value : Val)
    (ekey nonce : List Nat) : Except Err (St × Option GErr) := do
  let enc? ← encrypt value ekey nonce
  match enc? with
  | none => .ok (st, some .cryptoErr)
  | some enc => do
    let kv : KeyValue := ⟨st.hk key, enc⟩
    match st.rootId with
    | none =>
      let (st, rid) := alloc st
        { keys := [some kv], children := [], isLeaf := true, numKeys := 0, offset := 0 }
      let st := { st with rootId := some rid }
      .ok (logOperation st "CREATE" key (some enc) false, none)
    | some rid => do
      let root ← heapGetE st rid
      let st ←
        if root.numKeys = 2 * st.t - 1 then do
          let (st, nid) := alloc st
            { keys := [], children := [root.offset], isLeaf := false,
              numKeys := 0, offset := 0 }
          let st ← splitChild st nid 0 rid
          let st := { st with rootId := some nid }
          let st ← insertNonFull fuel st nid kv
          writeRoot st
        else pure st
      let st ← insertNonFull fuel st rid kv
      .ok (logOperation st "CREATE" key (some enc) false, none)

/-- `search(node, key)`, returning the location `(node id, index)` of the
`*KeyValue` the source returns (through which `Read` reads and `Update`
writes); `none` is the nil return, covering both "not found" and the
swallowed child-read failure. -/
def search (fuel : Nat) (st : St) (onid : Option Nat) (key : Key) :
    Except Err (St × Option (Nat × Nat)) :=
  match fuel with
  | 0 => .error .fuel
  | f + 1 =>
    match onid with
    | none => .ok (st, none)
    | some id => do
      let node ← heapGetE st id
      let i ← upScan node.keys key node.numKeys
      let hit ←
        if (i : Int) < node.numKeys then do
          let kv ← idxE node.keys (i : Int) >>= derefE
          pure (kv.key == key)
        else pure false
      if hit then .ok (st, some (id, i))
      else if node.isLeaf then .ok (st, none)
      else do
        let off ← idxE node.children (i : Int)
        match readNode st off with
        | (st, none) => .ok (st, none)
        | (st, some cid) => search f st (some cid) key

/-- `Read(key, encryptionKey, nonce)`; `none` is the Go error return (key
not found, or a decryption failure). -/
def Read (fuel : Nat) (st : St) (key : Key) (ekey nonce : List Nat) :
    Except Err (St × Option Val) := do
  let hKey := st.hk key
  let (st, loc) ← search fuel st st.rootId hKey
  match loc with
  | none => .ok (st, none)
  | some (id, i) => do
    let node ← heapGetE st id
    let kv ← idxE node.keys (i : Int) >>= derefE
    let dec ← decrypt kv.value ekey nonce
    .ok (st, dec)

/-- `Update(key, newValue, encryptionKey, nonce)` (the `lib` package
version, which logs an UPDATE record; the stale root-package copy logs
CREATE).  The found entry's value is overwritten in place through the
pointer; nothing is written to the node store and no cache entry is
touched. -/
def Update (fuel : Nat) (st : St) (key : Key) (newValue : Val)
    (ekey nonce : List Nat) : Except Err (St × Option GErr) := do
  let hKey := st.hk key
  let (st, loc) ← search fuel st st.rootId hKey
  match loc with
  | none => .ok (st, some .notFound)
  | some (id, i) => do
    let enc? ← encrypt newValue ekey nonce
    match enc? with
    | none => .ok (st, some .cryptoErr)
    | some enc => do
      let node ← heapGetE st id
      let kv ← idxE node.keys (i : Int) >>= derefE
      let ks ← setE node.keys (i : Int) (some { kv with value := enc })
      let st := heapSet st id { node with keys := ks }
      .ok (logOperation st "UPDATE" key (some enc) false, none)

/-- The descent loop of `getPredecessor`: follow the rightmost child until a
leaf; a failed read returns nil (`none`). -/
def predLoop (fuel : Nat) (st : St) (id : Nat) : Except Err (St × Option Nat) :=
  match fuel with
  | 0 => .error .fuel
  | f + 1 => do
    let cur ← heapGetE st id
    if cur.isLeaf then .ok (st, some id)
    else do
      let off ← idxE cur.children cur.numKeys
      match readNode st off with
      | (st, none) => .ok (st, none)
      | (st, some cid) => predLoop f st cid

/-- The descent loop of `getSuccessor`: follow the leftmost child. -/
def succLoop (fuel : Nat) (st : St) (id : Nat) : Except Err (St × Option Nat) :=
  match fuel with
  | 0 => .error .fuel
  | f + 1 => do
    let cur ← heapGetE st id
    if cur.isLeaf then .ok (st, some id)
    else do
      let off ← idxE cur.children 0
      match readNode st off with
      | (st, none) => .ok (st, none)
      | (st, some cid) => succLoop f st cid

/-- `getPredecessor(node, idx)`: the last key pointer of the rightmost leaf
under child `idx` (`none` on a read failure — the source returns nil, which
the caller then dereferences). -/
def getPredecessor (fuel : Nat) (st : St) (id : Nat) (idx : Int) :
    Except Err (St × Option KeyValue) := do
  let node ← heapGetE st id
  let off ← idxE node.children idx
  match readNode st off with
  | (st, none) => .ok (st, none)
  | (st, some cid) => do
    let (st, leaf?) ← predLoop fuel st cid
    match leaf? with
    | none => .ok (st, none)
    | some lid => do
      let cur ← heapGetE st lid
      let kv ← idxE cur.keys (cur.numKeys - 1)
      .ok (st, kv)

/-- `getSuccessor(node, idx)`: the first key pointer of the leftmost leaf
under child `idx+1`. -/
def getSuccessor (fuel : Nat) (st : St) (id : Nat) (idx : Int) :
    Except Err (St × Option KeyValue) := do
  let node ← heapGetE st id
  let off ← idxE node.children (idx + 1)
  match readNode st off with
  | (st, none) => .ok (st, none)
  | (st, some cid) => do
    let (st, leaf?) ← succLoop fuel st cid
    match leaf? with
    | none => .ok (st, none)
    | some lid => do
      let cur ← heapGetE st lid
      let kv ← idxE cur.keys 0
      .ok (st, kv)

/-- `merge(node, idx)`: fold the key at `idx` and the right sibling into
child `idx`, mutation order as in the source.  The child pointer is
re-read before each field access (the objects are aliased through the
cache, so earlier holders of the same pointer observe these mutations). -/
def merge (st : St) (id : Nat) (idx : Int) : Except Err (St × Option GErr) := do
  let node ← heapGetE st id
  let off ← idxE node.children idx
  match readNode st off with
  | (st, none) => .ok (st, some .ioErr)
  | (st, some cid) => do
    let off2 ← idxE node.children (idx + 1)
    match readNode st off2 with
    | (st, none) => .ok (st, some .ioErr)
    | (st, some sid) => do
      let child ← heapGetE st cid
      let ki ← idxE node.keys idx
      let st := heapSet st cid { child with keys := child.keys ++ [ki] }
      let child ← heapGetE st cid
      let sib ← heapGetE st sid
      let st := heapSet st cid { child with keys := child.keys ++ sib.keys }
      let child ← heapGetE st cid
      let sib ← heapGetE st sid
      let st :=
        if child.isLeaf then st
        else heapSet st cid { child with children := child.children ++ sib.children }
      let node ← heapGetE st id
      let a ← sliceTo node.keys idx
      let b1 ← sliceFrom node.keys (idx + 1)
      let st := heapSet st id { node with keys := a ++ b1 }
      let node ← heapGetE st id
      let a2 ← sliceTo node.children (idx + 1)
      let b2 ← sliceFrom node.children (idx + 2)
      let st := heapSet st id { node with children := a2 ++ b2 }
      let child ← heapGetE st cid
      let sib ← heapGetE st sid
      let st := heapSet st cid { child with numKeys := child.numKeys + sib.numKeys + 1 }
      let node ← heapGetE st id
      let st := heapSet st id { node with numKeys := node.numKeys - 1 }
      let (st, _) := writeNode st cid
      let (st, _) := writeNode st id
      .ok (st, none)

/-- `borrowFromPrev(node, idx)`.  As in the source, the moved key is left in
the sibling's `keys` slice; only its `numKeys` is decremented. -/
def borrowFromPrev (st : St) (id : Nat) (idx : Int) :
    Except Err (St × Option GErr) := do
  let node ← heapGetE st id
  let off ← idxE node.children idx
  match readNode st off with
  | (st, none) => .ok (st, some .ioErr)
  | (st, some cid) => do
    let off2 ← idxE node.children (idx - 1)
    match readNode st off2 with
    | (st, none) => .ok (st, some .ioErr)
    | (st, some sid) => do
      let child ← heapGetE st cid
      let ki ← idxE node.keys (idx - 1)
      let st := heapSet st cid { child with keys := ki :: child.keys }
      let sib ← heapGetE st sid
      let sk ← idxE sib.keys (sib.numKeys - 1)
      let node ← heapGetE st id
      let nk ← setE node.keys (idx - 1) sk
      let st := heapSet st id { node with keys := nk }
      let child ← heapGetE st cid
      let st ←
        if child.isLeaf then pure st
        else do
          let sib ← heapGetE st sid
          let sc ← idxE sib.children sib.numKeys
          pure (heapSet st cid { child with children := sc :: child.children })
      let sib ← heapGetE st sid
      let st := heapSet st sid { sib with numKeys := sib.numKeys - 1 }
      let child ← heapGetE st cid
      let st := heapSet st cid { child with numKeys := child.numKeys + 1 }
      let (st, _) := writeNode st cid
      let (st, _) := writeNode st sid
      let (st, _) := writeNode st id
      .ok (st, none)

/-- `borrowFromNext(node, idx)`. -/
def borrowFromNext (st : St) (id : Nat) (idx : Int) :
    Except Err (St × Option GErr) := do
  let node ← heapGetE st id
  let off ← idxE node.children idx
  match readNode st off with
  | (st, none) => .ok (st, some .ioErr)
  | (st, some cid) => do
    let off2 ← idxE node.children (idx + 1)
    match readNode st off2 with
    | (st, none) => .ok (st, some .ioErr)
    | (st, some sid) => do
      let child ← heapGetE st cid
      let ki ← idxE node.keys idx
      let st := heapSet st cid { child with keys := child.keys ++ [ki] }
      let sib ← heapGetE st sid
      let sk ← idxE sib.keys 0
      let node ← heapGetE st id
      let nk ← setE node.keys idx sk
      let st := heapSet st id { node with keys := nk }
      let child ← heapGetE st cid
      let st ←
        if child.isLeaf then pure st
        else do
          let sib ← heapGetE st sid
          let sc ← idxE sib.children 0
          let st := heapSet st cid { child with children := child.children ++ [sc] }
          let sib ← heapGetE st sid
          let rest ← sliceFrom sib.children 1
          pure (heapSet st sid { sib with children := rest })
      let sib ← heapGetE st sid
      let krest ← sliceFrom sib.keys 1
      let st := heapSet st sid { sib with keys := krest }
      let sib ← heapGetE st sid
      let st := heapSet st sid { sib with numKeys := sib.numKeys - 1 }
      let child ← heapGetE st cid
      let st := heapSet st cid { child with numKeys := child.numKeys + 1 }
      let (st, _) := writeNode st cid
      let (st, _) := writeNode st sid
      let (st, _) := writeNode st id
      .ok (st, none)

/-- `fill(node, idx)`: borrow from the previous sibling if it can spare a
key, else from the next, else merge (with the next when `idx != numKeys`,
otherwise with the previous). -/
def fill (st : St) (id : Nat) (idx : Int) : Except Err (St × Option GErr) := do
  let node ← heapGetE st id
  if idx ≠ 0 then do
    let off ← idxE node.children (idx - 1)
    match readNode st off with
    | (st, none) => .ok (st, some .ioErr)
    | (st, some pid) => do
      let prev ← heapGetE st pid
      if st.t ≤ prev.numKeys then borrowFromPrev st id idx
      else fillNext st id idx
  else fillNext st id idx

where
  /-- The second and third stages of `fill`. -/
  fillNext (st : St) (id : Nat) (idx : Int) : Except Err (St × Option GErr) := do
    let node ← heapGetE st id
    if idx ≠ node.numKeys then do
      let off ← idxE node.children (idx + 1)
      match readNode st off with
      | (st, none) => .ok (st, some .ioErr)
      | (st, some sid) => do
        let next ← heapGetE st sid
        if st.t ≤ next.numKeys then borrowFromNext st id idx
        else
          if idx ≠ node.numKeys then merge st id idx else merge st id (idx - 1)
    else
      if idx ≠ node.numKeys then merge st id idx else merge st id (idx - 1)

/-- The tail every non-erroring `Delete` call runs: write the node back and
append (and fsync) a DELETE record for the key argument. -/
def deleteTail (st : St) (id : Nat) (key : Key) : St × Option GErr :=
  let (st, _) := writeNode st id
  (logOperation st "DELETE" key none false, none)

mutual

/-- `Delete(node, key)` (the `lib` package version, which also logs a
DELETE record at every recursion level).  Note it compares the raw `key`
argument against the stored keys and contains no root-replacement step. -/
def Delete (fuel : Nat) (st : St) (id : Nat) (key : Key) :
    Except Err (St × Option GErr) :=
  match fuel with
  | 0 => .error .fuel
  | f + 1 => do
    let node ← heapGetE st id
    let i ← upScan node.keys key node.numKeys
    let found ←
      if (i : Int) < node.numKeys then do
        let kv ← idxE node.keys (i : Int) >>= derefE
        pure (kv.key == key)
      else pure false
    if found then
      if node.isLeaf then do
        let a ← sliceTo node.keys (i : Int)
        let b1 ← sliceFrom node.keys ((i : Int) + 1)
        let st := heapSet st id { node with keys := a ++ b1, numKeys := node.numKeys - 1 }
        let (st, _) := writeNode st id
        .ok (deleteTail st id key)
      else do
        let (st, e) ← deleteInternalNode f st id i
        match e with
        | some _ => .ok (st, e)
        | none => .ok (deleteTail st id key)
    else if !node.isLeaf then do
      let off ← idxE node.children (i : Int)
      match readNode st off with
      | (st, none) => .ok (st, some .ioErr)
      | (st, some cid) => do
        let child ← heapGetE st cid
        let (st, e1) ←
          if child.numKeys < st.t then fill st id (i : Int) else pure (st, none)
        match e1 with
        | some _ => .ok (st, e1)
        | none => do
          let (st, e2) ← Delete f st cid key
          match e2 with
          | some _ => .ok (st, e2)
          | none => .ok (deleteTail st id key)
    else .ok (deleteTail st id key)

/-- `deleteInternalNode(node, idx)` (one fuel unit is consumed per model
call; fuel only bounds the recursion depth). -/
def deleteInternalNode (fuel : Nat) (st : St) (id : Nat) (idx : Nat) :
    Except Err (St × Option GErr) :=
  match fuel with
  | 0 => .error .fuel
  | fuel + 1 => do
  let node ← heapGetE st id
  let ki ← idxE node.keys (idx : Int)
  let off ← idxE node.children (idx : Int)
  match readNode st off with
  | (st, none) => .ok (st, some .ioErr)
  | (st, some pcid) => do
    let predChild ← heapGetE st pcid
    if st.t ≤ predChild.numKeys then do
      let (st, pred) ← getPredecessor fuel st id (idx : Int)
      let node ← heapGetE st id
      let nk ← setE node.keys (idx : Int) pred
      let st := heapSet st id { node with keys := nk }
      let pk ← derefE pred
      let (st, e) ← Delete fuel st pcid pk.key
      match e with
      | some _ => .ok (st, e)
      | none =>
        let (st, _) := writeNode st id
        .ok (st, none)
    else do
      let off2 ← idxE node.children ((idx : Int) + 1)
      match readNode st off2 with
      | (st, none) => .ok (st, some .ioErr)
      | (st, some scid) => do
        let succChild ← heapGetE st scid
        if st.t ≤ succChild.numKeys then do
          let (st, succ) ← getSuccessor fuel st id (idx : Int)
          let node ← heapGetE st id
          let nk ← setE node.keys (idx : Int) succ
          let st := heapSet st id { node with keys := nk }
          let sk ← derefE succ
          let (st, e) ← Delete fuel st scid sk.key
          match e with
          | some _ => .ok (st, e)
          | none =>
            let (st, _) := writeNode st id
            .ok (st, none)
        else do
          let (st, e) ← merge st id (idx : Int)
          match e with
          | some _ => .ok (st, e)
          | none => do
            let node ← heapGetE st id
            let off3 ← idxE node.children (idx : Int)
            match readNode st off3 with
            | (st, none) => .ok (st, some .ioErr)
            | (st, some cid) => do
              let k ← derefE ki
              let (st, e2) ← Delete fuel st cid k.key
              match e2 with
              | some _ => .ok (st, e2)
              | none =>
                let (st, _) := writeNode st id
                .ok (st, none)

end

/-- The key-emitting loop of `traverse`
(`for i := 0; i < numKeys; i++ { append keys[i].Key }`). -/
def emitKeys (keys : List (Option KeyValue)) : Nat → Nat → Except Err (List Key)
  | _, 0 => .ok []
  | i, r + 1 => do
    let kv ← idxE keys (i : Int) >>= derefE
    let rest ← emitKeys keys (i + 1) r
    .ok (kv.key :: rest)

mutual

/-- `traverse(node, keys)` (root package): emit this node's keys, then
every child's, in order — the node's own keys come first.  A child-read
failure is the propagated error return (`Err.decodeErr`).  One fuel unit
is consumed per model call, so fuel bounds the total number of visits,
not the program's (unbounded) recursion. -/
def traverse (fuel : Nat) (st : St) (id : Nat) : Except Err (St × List Key) :=
  match fuel with
  | 0 => .error .fuel
  | f + 1 => do
    let node ← heapGetE st id
    let own ← emitKeys node.keys 0 node.numKeys.toNat
    if node.isLeaf then .ok (st, own)
    else
      let iters := if node.numKeys < 0 then 0 else node.numKeys.toNat + 1
      travKids f st node.children 0 iters own

/-- The child loop of `traverse` (`for i := 0; i <= numKeys; i++`). -/
def travKids (fuel : Nat) (st : St) (children : List Int) (i : Nat) (r : Nat)
    (acc : List Key) : Except Err (St × List Key) :=
  match fuel with
  | 0 => .error .fuel
  | f + 1 =>
    match r with
    | 0 => .ok (st, acc)
    | r + 1 => do
      let off ← idxE children (i : Int)
      match readNode st off with
      | (_, none) => .error .decodeErr
      | (st, some cid) => do
        let (st, ks) ← traverse f st cid
        travKids f st children (i + 1) r (acc ++ ks)

end

/-- `ListKeys()` (root package): all stored keys by `traverse`; an empty
tree yields the empty list. -/
def ListKeys (fuel : Nat) (st : St) : Except Err (St × List Key) :=
  match st.rootId with
  | none => .ok (st, [])
  | some rid => traverse fuel st rid

/-- `LoadLog`: decode the log records in order and replay CREATE through
`Insert` (whose own `logOperation(..., false)` appends to the log — the
`skipLog = true` calls in `LoadLog` itself are separate no-ops) and DELETE
through `Delete` on the root; other operations (UPDATE) have no case and
are skipped.  Replaying DELETE against a nil root dereferences nil.  At the
end of the decoded records, a clean EOF breaks the loop and returns nil,
while a decode error from a truncated tail record is returned to the
caller (`GErr.ioErr`). -/
def LoadLog (fuel : Nat) (st : St) (entries : List LogEntry)
    (ekey nonce : List Nat) (truncatedTail : Bool) :
    Except Err (St × Option GErr) :=
  match entries with
  | [] => if truncatedTail then .ok (st, some .ioErr) else .ok (st, none)
  | e :: rest =>
    if e.operation = "CREATE" then
      match Insert fuel st e.key (e.value.getD (.bytes [])) ekey nonce with
      | .error er => .error er
      | .ok (st, _) => LoadLog fuel st rest ekey nonce truncatedTail
    else if e.operation = "DELETE" then
      match st.rootId with
      | none => .error .panic
      | some rid =>
        match Delete fuel st rid e.key with
        | .error er => .error er
        | .ok (st, _) => LoadLog fuel st rest ekey nonce truncatedTail
    else LoadLog fuel st rest ekey nonce truncatedTail

/-- `NewBTree` re-opening existing files (the simulated crash-and-reopen):
fresh in-memory state over the old database and log files; `LoadDB`
gob-decodes the first value of the database file as the root (an existing
but empty database file makes that `Decode` return `io.EOF`, which
`LoadDB` — having no EOF case — returns, failing the open, hence `none`);
then `LoadLog` replays the snapshot of the log file.  A `none` result is
`NewBTree` returning an error. -/
def reopen (fuel : Nat) (old : St) (cacheSize : Int) (ekey nonce : List Nat)
    (truncatedTail : Bool) : Except Err (Option St) :=
  let st0 : St :=
    { heap := [], nextId := 0, disk := old.disk, nextOff := old.nextOff,
      rootPtr := old.rootPtr, cache := NewCache Nat cacheSize, log := old.log,
      rootId := none, t := old.t, hk := old.hk }
  match old.disk with
  | [] => .ok none
  | (_, n) :: _ =>
    let (st1, rid) := alloc st0 n
    let st1 := { st1 with rootId := some rid }
    match LoadLog fuel st1 old.log ekey nonce truncatedTail with
    | .error er => .error er
    | .ok (_, some _) => .ok none
    | .ok (st2, none) => .ok (some st2)

/-! ### Observation helpers and concrete fixtures

The engine state contains the HMAC model as a function, so concrete runs
are observed through projections with decidable equality. -/

/-- Observe an operation's result, dropping the state. -/
def obsErr {α : Type} (x : Except Err (St × α)) : Except Err α :=
  x.map Prod.snd

/-- Extract the post-state of a successful run (with an explicit fallback;
every theorem below separately asserts that the run succeeded). -/
def stOf (x : Except Err (St × α)) (dflt : St) : St :=
  match x with
  | .ok (st, _) => st
  | .error _ => dflt

/-- A concrete injective HMAC model for the fixtures. -/
def hkDemo : Key → Key := fun k => 0 :: k

/-- A 32-byte encryption key. -/
def ekDemo : List Nat := List.replicate 32 0

/-- A 24-byte nonce. -/
def nonceDemo : List Nat := List.replicate 24 0

/-- A freshly opened engine over empty files. -/
def emptySt (t : Int) (cacheSize : Int) : St :=
  { heap := [], nextId := 0, disk := [], nextOff := 0, rootPtr := none,
    cache := NewCache Nat cacheSize, log := [], rootId := none,
    t := t, hk := hkDemo }

/-! #### Fixture for C1: a tree whose root (a leaf) is full, t = 2. -/

/-- A full leaf root (2t−1 = 3 keys) holding sealed values. -/
def c1Root : Node :=
  { keys := [some ⟨[0, 1], .sealed ekDemo nonceDemo (.bytes [1])⟩,
             some ⟨[0, 2], .sealed ekDemo nonceDemo (.bytes [2])⟩,
             some ⟨[0, 3], .sealed ekDemo nonceDemo (.bytes [3])⟩],
    children := [], isLeaf := true, numKeys := 3, offset := 0 }

/-- Engine state with the full leaf root. -/
def c1St : St :=
  { emptySt 2 0 with heap := [(0, c1Root)], nextId := 1, rootId := some 0 }

/-! #### Fixture for C2: fresh engine, two inserts, crash, reopen. -/

def c2St0 : St := emptySt 2 0

def c2St1 : St := stOf (Insert 9 c2St0 [1] (.bytes [11]) ekDemo nonceDemo) c2St0

def c2St2 : St := stOf (Insert 9 c2St1 [2] (.bytes [22]) ekDemo nonceDemo) c2St1

/-- The reopened engine after the simulated crash. -/
def c2Reopen : Except Err (Option St) := reopen 9 c2St2 0 ekDemo nonceDemo false

def c2St3 : St :=
  match c2Reopen with
  | .ok (some st) => st
  | _ => c2St0

/-! #### Fixture for C4: a well-formed one-entry leaf root, duplicate insert. -/

def c4Root : Node :=
  { keys := [some ⟨[0, 1], .sealed ekDemo nonceDemo (.bytes [11])⟩],
    children := [], isLeaf := true, numKeys := 1, offset := 0 }

def c4St : St :=
  { emptySt 2 0 with heap := [(0, c4Root)], nextId := 1, rootId := some 0 }

def c4St' : St := stOf (Insert 9 c4St [1] (.bytes [22]) ekDemo nonceDemo) c4St

/-! #### Fixture for C5: internal root with one key and two minimal leaf
children (t = 2), cached at their offsets; deleting a key from the left
leaf forces `fill`/`merge` and leaves the root with zero keys. -/

def c5Left : Node :=
  { keys := [some ⟨[1], .bytes [1]⟩], children := [], isLeaf := true,
    numKeys := 1, offset := 10 }

def c5Right : Node :=
  { keys := [some ⟨[3], .bytes [3]⟩], children := [], isLeaf := true,
    numKeys := 1, offset := 20 }

def c5Root : Node :=
  { keys := [some ⟨[2], .bytes [2]⟩], children := [10, 20], isLeaf := false,
    numKeys := 1, offset := 0 }

def c5St : St :=
  { heap := [(0, c5Root), (1, c5Left), (2, c5Right)], nextId := 3,
    disk := [(10, c5Left), (20, c5Right)], nextOff := 100, rootPtr := none,
    cache := { store := [(10, 1, false), (20, 2, false)], order := [10, 20],
               size := 0, flushes := [] },
    log := [], rootId := some 0, t := 2, hk := hkDemo }

def c5Run : Except Err (St × Option GErr) := Delete 9 c5St 0 [1]

def c5St' : St := stOf c5Run c5St

/-! #### Fixture for C6: one-entry leaf root, update of the present key. -/

def c6Root : Node :=
  { keys := [some ⟨[0, 1], .sealed ekDemo nonceDemo (.bytes [11])⟩],
    children := [], isLeaf := true, numKeys := 1, offset := 0 }

def c6St : St :=
  { emptySt 2 0 with heap := [(0, c6Root)], nextId := 1, rootId := some 0 }

def c6Run : Except Err (St × Option GErr) :=
  Update 9 c6St [1] (.bytes [77]) ekDemo nonceDemo

def c6St' : St := stOf c6Run c6St

/-! #### Fixture for C7/C8: an engine image whose database file holds one
node and whose log holds one CREATE record. -/

def c7Node : Node :=
  { keys := [some ⟨[0, 9], .sealed ekDemo nonceDemo (.bytes [99])⟩],
    children := [], isLeaf := true, numKeys := 1, offset := 0 }

def c7Entry : LogEntry :=
  ⟨"CREATE", [1], some (.sealed ekDemo nonceDemo (.bytes [11]))⟩

def c7St : St :=
  { heap := [], nextId := 0, disk := [(0, c7Node)], nextOff := 1,
    rootPtr := none, cache := NewCache Nat 0, log := [c7Entry],
    rootId := none, t := 2, hk := hkDemo }

def c7Reopen : Except Err (Option St) := reopen 9 c7St 0 ekDemo nonceDemo false

/-! #### Fixture for C9: internal root with key [2] over leaf children
holding [1] and [3]; the children live only on disk, the cache is empty. -/

def c9Left : Node :=
  { keys := [some ⟨[1], .bytes [1]⟩], children := [], isLeaf := true,
    numKeys := 1, offset := 10 }

def c9Right : Node :=
  { keys := [some ⟨[3], .bytes [3]⟩], children := [], isLeaf := true,
    numKeys := 1, offset := 20 }

def c9Root : Node :=
  { keys := [some ⟨[2], .bytes [2]⟩], children := [10, 20], isLeaf := false,
    numKeys := 1, offset := 0 }

def c9St : St :=
  { heap := [(0, c9Root)], nextId := 1, disk := [(10, c9Left), (20, c9Right)],
    nextOff := 100, rootPtr := none, cache := NewCache Nat 0, log := [],
    rootId := some 0, t := 2, hk := hkDemo }

/-! #### Fixture for C8: a state with a leaf root on which `LoadLog` can be
run directly, and an engine image for the reopen form. -/

def c8Node : Node :=
  { keys := [some ⟨[0, 9], .sealed ekDemo nonceDemo (.bytes [99])⟩],
    children := [], isLeaf := true, numKeys := 1, offset := 0 }

def c8Entry : LogEntry :=
  ⟨"CREATE", [1], some (.sealed ekDemo nonceDemo (.bytes [11]))⟩

/-- An engine image (database file with one node, log with one record). -/
def c8St : St :=
  { heap := [], nextId := 0, disk := [(0, c8Node)], nextOff := 1,
    rootPtr := none, cache := NewCache Nat 0, log := [c8Entry],
    rootId := none, t := 2, hk := hkDemo }

/-- A live state with the decoded root, for running `LoadLog` directly. -/
def c8WSt : St :=
  { c8St with heap := [(0, c8Node)], nextId := 1, rootId := some 0 }

def c8WSt' : St :=
  stOf (LoadLog 9 c8WSt [c8Entry] ekDemo nonceDemo false) c8WSt

/-! #### Fixture for C3: a full leaf child and a full internal child under a
one-child parent (t = 2). -/

def c3Parent : Node :=
  { keys := [], children := [0], isLeaf := false, numKeys := 0, offset := 0 }

def c3LeafChild : Node :=
  { keys := [some ⟨[1], .bytes [1]⟩, some ⟨[2], .bytes [2]⟩,
             some ⟨[3], .bytes [3]⟩],
    children := [], isLeaf := true, numKeys := 3, offset := 0 }

def c3InternalChild : Node :=
  { keys := [some ⟨[3], .bytes [3]⟩, some ⟨[5], .bytes [5]⟩,
             some ⟨[7], .bytes [7]⟩],
    children := [31, 32, 33, 34], isLeaf := false, numKeys := 3, offset := 0 }

def c3StLeaf : St :=
  { emptySt 2 0 with
    heap := [(0, c3Parent), (1, c3LeafChild)], nextId := 2, rootId := some 0 }

def c3StInternal : St :=
  { emptySt 2 0 with
    heap := [(0, c3Parent), (1, c3InternalChild)], nextId := 2, rootId := some 0 }

/-! ### Specification-side traversal enumerations (for C9)

`preKeysD` is the pure mirror of `traverse` reading node snapshots from the
database file only; `inorderKeysD` is modelled from the spec's words
("inorder traversal": each key emitted between its adjacent subtrees), to
be compared with the code's order. -/

mutual

/-- Pure pre-order enumeration mirroring `traverse` over the disk map
(same fuel discipline as `traverse`/`travKids`). -/
def preKeysD (fuel : Nat) (disk : List (Int × Node)) (n : Node) :
    Except Err (List Key) :=
  match fuel with
  | 0 => .error .fuel
  | f + 1 => do
    let own ← emitKeys n.keys 0 n.numKeys.toNat
    if n.isLeaf then .ok own
    else
      let iters := if n.numKeys < 0 then 0 else n.numKeys.toNat + 1
      let ks ← preKids f disk n.children 0 iters
      .ok (own ++ ks)

/-- Children loop of `preKeysD`. -/
def preKids (fuel : Nat) (disk : List (Int × Node)) (children : List Int)
    (i r : Nat) : Except Err (List Key) :=
  match fuel with
  | 0 => .error .fuel
  | f + 1 =>
    match r with
    | 0 => .ok []
    | r + 1 => do
      let off ← idxE children (i : Int)
      match findA disk off with
      | none => .error .decodeErr
      | some n => do
        let ks ← preKeysD f disk n
        let rest ← preKids f disk children (i + 1) r
        .ok (ks ++ rest)

end

mutual

/-- Modelled from the spec: inorder enumeration over the same disk map
(same fuel discipline). -/
def inorderKeysD (fuel : Nat) (disk : List (Int × Node)) (n : Node) :
    Except Err (List Key) :=
  match fuel with
  | 0 => .error .fuel
  | f + 1 => do
    let own ← emitKeys n.keys 0 n.numKeys.toNat
    if n.isLeaf then .ok own
    else
      let iters := if n.numKeys < 0 then 0 else n.numKeys.toNat + 1
      inKids f disk n.children 0 iters own

/-- Children loop of `inorderKeysD`: child `i`, then the node's `i`-th key,
then onwards. -/
def inKids (fuel : Nat) (disk : List (Int × Node)) (children : List Int)
    (i r : Nat) (own : List Key) : Except Err (List Key) :=
  match fuel with
  | 0 => .error .fuel
  | f + 1 =>
    match r with
    | 0 => .ok own
    | r + 1 => do
      let off ← idxE children (i : Int)
      match findA disk off with
      | none => .error .decodeErr
      | some n => do
        let ks ← inorderKeysD f disk n
        match own with
        | [] => do
          let rest ← inKids f disk children (i + 1) r []
          .ok (ks ++ rest)
        | k :: ownRest => do
          let rest ← inKids f disk children (i + 1) r ownRest
          .ok (ks ++ k :: rest)

end

/-- Strictly-ascending check on a key list (pairwise, which for the total
byte-wise order coincides with adjacent-chain sortedness); the form the
ordering invariant takes on an enumeration. -/
def ascending : List Key → Bool
  | [] => true
  | a :: rest => rest.all (fun b => keyLt a b) && ascending rest

/-! ### Invariants used by the general theorems -/

/-- What a read-only engine pass preserves: the log, the root pointer, the
degree, the MAC function, and every existing node object. -/
def Preserves (st st' : St) : Prop :=
  st'.log = st.log ∧ st'.rootId = st.rootId ∧ st'.t = st.t ∧ st'.hk = st.hk ∧
  ∀ i v, findA st.heap i = some v → findA st'.heap i = some v

/-- Every cache entry maps its offset to a live object equal to that
offset's disk snapshot (true of caches populated only by `readNode`). -/
def CacheFaithful (st : St) : Prop :=
  ∀ off id d, (off, (id, d)) ∈ st.cache.store →
    ∃ n, findA st.disk off = some n ∧ findA st.heap id = some n

/-- Heap ids are below the allocator watermark. -/
def HeapWF (st : St) : Prop := ∀ p ∈ st.heap, p.1 < st.nextId

/-- The two together. -/
def EngineInv (st : St) : Prop := CacheFaithful st ∧ HeapWF st

/-! ### Cache operation sequences (for C10) -/

/-- An external cache operation. -/
inductive CacheOp (α : Type) where
  | get (off : Int)
  | put (off : Int) (node : α) (dirty : Bool)

/-- Run one operation. -/
def runOp (c : Cache α) : CacheOp α → Cache α
  | .get off => (cacheGet c off).2
  | .put off a d => cachePut c off a d

/-- Run a sequence of operations. -/
def runOps (c : Cache α) (ops : List (CacheOp α)) : Cache α :=
  ops.foldl runOp c

/-- The offset of a `put`, if any. -/
def putOffset : CacheOp α → Option Int
  | .get _ => none
  | .put off _ _ => some off

/-- The cache's structural invariant: the map's keys are a permutation of
the order list, and the order list has no duplicates. -/
def CacheWF (c : Cache α) : Prop :=
  (c.store.map Prod.fst).Perm c.order ∧ c.order.Nodup

/-! ## Theorems -/

/-- Claim C1: inserting into a tree whose root is full (here a leaf root
with 2t−1 = 3 keys at t = 2, the state reached after four inserts into a
fresh tree) does not create a new root, split the old one, and insert the
entry exactly once — it panics with a slice-bounds violation inside
`splitChild` (`fullChild.children[t:]` on the leaf's empty `children`
slice), before any entry is inserted.  (Had the split succeeded, `Insert`
would moreover run `insertNonFull` twice — once on the new root and, by
fall-through, once on the old root.) -/
theorem c1_insert_full_root_panics :
    c1Root.numKeys = 2 * c1St.t - 1 ∧
    obsErr (Insert 9 c1St [4] (.bytes [4]) ekDemo nonceDemo) = .error .panic :=
  ⟨rfl, rfl⟩

/-- Claim C2: on a fresh engine, `Insert [1] v1` and `Insert [2] v2` are
both acknowledged; before the crash `Read [1]` already fails (the fresh
root is created with `numKeys = 0`, so the second insert overwrites the
first entry), and after the crash-and-reopen `Read [1]` returns the
single-sealed ciphertext of `v1` — the replay re-encrypts the already
encrypted logged value — so the same read does not return the same result,
and the inserted plaintext is not returned unchanged. -/
theorem c2_reopen_read_differs :
    obsErr (Insert 9 c2St0 [1] (.bytes [11]) ekDemo nonceDemo) = .ok none ∧
    obsErr (Insert 9 c2St1 [2] (.bytes [22]) ekDemo nonceDemo) = .ok none ∧
    obsErr (Read 9 c2St2 [1] ekDemo nonceDemo) = .ok none ∧
    c2Reopen.map Option.isSome = .ok true ∧
    obsErr (Read 9 c2St3 [1] ekDemo nonceDemo) =
      .ok (some (.sealed ekDemo nonceDemo (.bytes [11]))) :=
  ⟨rfl, rfl, rfl, rfl, rfl⟩

/-- Claim C3: `splitChild` never completes, neither for a full leaf child
(panic at `fullChild.children[t:]`, an out-of-range slice of the empty
children slice) nor for a full internal child (after truncating the child
to its first t−1 keys, the code reads the median as `fullChild.keys[t-1]`
— an out-of-range index into the now t−1–element slice). -/
theorem c3_splitChild_panics :
    (c3LeafChild.keys.length : Int) = 2 * c3StLeaf.t - 1 ∧
    (c3InternalChild.keys.length : Int) = 2 * c3StInternal.t - 1 ∧
    splitChild c3StLeaf 0 0 1 = .error .panic ∧
    splitChild c3StInternal 0 0 1 = .error .panic :=
  ⟨rfl, rfl, rfl, rfl⟩

/-- Claim C4: inserting a key that is already present (well-formed
one-entry leaf root) appends a second entry with the same stored key:
`ListKeys` grows from one to two copies of the stored key, and `Read`
returns the original value, not the newly inserted one. -/
theorem c4_duplicate_insert_duplicates :
    obsErr (ListKeys 9 c4St) = .ok [[0, 1]] ∧
    obsErr (Insert 9 c4St [1] (.bytes [22]) ekDemo nonceDemo) = .ok none ∧
    obsErr (ListKeys 9 c4St') = .ok [[0, 1], [0, 1]] ∧
    obsErr (Read 9 c4St' [1] ekDemo nonceDemo) = .ok (some (.bytes [11])) :=
  ⟨rfl, rfl, rfl, rfl⟩

/-- Claim C5: deleting key [1] from a minimal two-level tree (t = 2,
internal root with one key over two one-key leaves) merges the children,
leaving the root with zero keys while it is not a leaf — and `Delete`
finishes without replacing the root by its sole child: the same node
object remains the root, now an empty internal node. -/
theorem c5_empty_internal_root_remains :
    obsErr c5Run = .ok none ∧
    c5St'.rootId = some 0 ∧
    findA c5St'.heap 0 =
      some { keys := [], children := [10], isLeaf := false, numKeys := 0,
             offset := 0 } :=
  ⟨rfl, rfl, rfl⟩

/-- Claim C6 counterexample: updating a present key succeeds, seals the
new value, overwrites the entry in place and appends an UPDATE record —
but no node is marked dirty: the cache is exactly as empty as before the
call and nothing was written to the database file, refuting the claim's
"the holding node is marked dirty" at this input. -/
theorem c6_update_marks_nothing_dirty :
    obsErr c6Run = .ok none ∧
    c6St'.cache.store = [] ∧
    c6St'.disk = [] ∧
    c6St'.log = [⟨"UPDATE", [1], some (.sealed ekDemo nonceDemo (.bytes [77]))⟩] ∧
    findA c6St'.heap 0 =
      some { keys := [some ⟨[0, 1], .sealed ekDemo nonceDemo (.bytes [77])⟩],
             children := [], isLeaf := true, numKeys := 1, offset := 0 } :=
  ⟨rfl, rfl, rfl, rfl, rfl⟩

/-- Claim C7: opening an engine whose log holds one CREATE record appends
a second CREATE record (with the logged ciphertext sealed again) to the
log — replay goes through `Insert`, which logs normally; the
`skipLog = true` calls in `LoadLog` are separate no-ops — so the log is
not unchanged by opening the engine. -/
theorem c7_replay_appends_to_log :
    c7St.log = [c7Entry] ∧
    (c7Reopen.map fun o => o.map fun st => st.log) =
      .ok (some [c7Entry,
        ⟨"CREATE", [1],
         some (.sealed ekDemo nonceDemo
           (.sealed ekDemo nonceDemo (.bytes [11])))⟩]) :=
  ⟨rfl, rfl⟩

/-- Claim C8 counterexample: the same engine image opens successfully when
the log's tail is intact, but when the tail record is truncated (the
decoder fails before a clean EOF) the decode error is returned and the
open fails — the error is surfaced to the caller, not swallowed. -/
theorem c8_truncated_tail_fails_open :
    (reopen 9 c8St 0 ekDemo nonceDemo false).map Option.isSome = .ok true ∧
    (reopen 9 c8St 0 ekDemo nonceDemo true).map Option.isSome = .ok false :=
  ⟨rfl, rfl⟩

/-- Claim C9 counterexample: on a two-level tree satisfying the ordering
invariant (inorder enumeration [1], [2], [3] strictly ascending),
`ListKeys` returns [2], [1], [3] — the root's key before its subtrees
(pre-order) — which is not in ascending order. -/
theorem c9_listkeys_not_ascending :
    inorderKeysD 9 c9St.disk c9Root = .ok [[1], [2], [3]] ∧
    ascending [[1], [2], [3]] = true ∧
    obsErr (ListKeys 9 c9St) = .ok [[2], [1], [3]] ∧
    ascending [[2], [1], [3]] = false :=
  ⟨rfl, rfl, rfl, rfl⟩

/-! ### Association-list lemmas -/

theorem findA_append_left [DecidableEq κ] {l l' : List (κ × α)} {k : κ} {v : α}
    (h : findA l k = some v) : findA (l ++ l') k = some v := by
  induction l with
  | nil => simp [findA] at h
  | cons p rest ih =>
    obtain ⟨k', a⟩ := p
    by_cases hk : k' = k
    · simpa [findA, hk] using by simpa [findA, hk] using h
    · simp [findA, hk] at h ⊢
      exact ih h

theorem findA_setA_self [DecidableEq κ] {l : List (κ × α)} {k : κ} {w v : α}
    (h : findA l k = some w) : findA (setA l k v) k = some v := by
  induction l with
  | nil => simp [findA] at h
  | cons p rest ih =>
    obtain ⟨k', a⟩ := p
    by_cases hk : k' = k
    · simp [findA, setA, hk]
    · simp [findA, setA, hk] at h ⊢
      exact ih h

theorem findA_setA_ne [DecidableEq κ] {l : List (κ × α)} {k k' : κ} {v : α}
    (h : k' ≠ k) : findA (setA l k v) k' = findA l k' := by
  induction l with
  | nil => rfl
  | cons p rest ih =>
    obtain ⟨k0, a⟩ := p
    simp only [setA]
    by_cases hk : k0 = k
    · rw [if_pos hk]
      have hne : ¬(k0 = k') := fun hh => h (by rw [← hh, hk])
      simp only [findA, if_neg hne]
    · rw [if_neg hk]
      simp only [findA]
      by_cases h2 : k0 = k'
      · rw [if_pos h2, if_pos h2]
      · rw [if_neg h2, if_neg h2]
        exact ih

theorem findA_fresh_append [DecidableEq κ] {l : List (κ × α)} {k : κ} {v : α}
    (h : findA l k = none) : findA (l ++ [(k, v)]) k = some v := by
  induction l with
  | nil => simp [findA]
  | cons p rest ih =>
    obtain ⟨k', a⟩ := p
    by_cases hk : k' = k
    · simp [findA, hk] at h
    · simp [findA, hk] at h ⊢
      exact ih h

/-- `Preserves` is reflexive. -/
theorem Preserves.refl (st : St) : Preserves st st :=
  ⟨rfl, rfl, rfl, rfl, fun _ _ hv => hv⟩

/-- `Preserves` is transitive. -/
theorem Preserves.trans {s1 s2 s3 : St} (h1 : Preserves s1 s2)
    (h2 : Preserves s2 s3) : Preserves s1 s3 :=
  ⟨h2.1.trans h1.1, h2.2.1.trans h1.2.1, h2.2.2.1.trans h1.2.2.1,
   h2.2.2.2.1.trans h1.2.2.2.1,
   fun i v hv => h2.2.2.2.2 i v (h1.2.2.2.2 i v hv)⟩

/-- Claim C8 (amended form, general): replay applies exactly the records
decoded before the failure point; with a clean end-of-file `LoadLog`
returns nil, and with a truncated tail record it returns the decode error
over the *same* final state — so the error is surfaced (and `NewBTree`
fails) rather than the truncation being treated silently as end-of-log. -/
theorem c8_loadlog_truncated_surfaces :
    ∀ (fuel : Nat) (es : List LogEntry) (st st' : St) (ek nn : List Nat),
      LoadLog fuel st es ek nn false = .ok (st', none) →
      LoadLog fuel st es ek nn true = .ok (st', some .ioErr) := by
  intro fuel es
  induction es with
  | nil =>
    intro st st' ek nn h
    simp only [LoadLog] at h ⊢
    cases h
    rfl
  | cons e rest ih =>
    intro st st' ek nn h
    simp only [LoadLog] at h ⊢
    split_ifs at h ⊢ with hc hd
    · cases hIns : Insert fuel st e.key (e.value.getD (.bytes [])) ek nn with
      | error er => rw [hIns] at h; cases h
      | ok p =>
        obtain ⟨st1, g⟩ := p
        rw [hIns] at h
        exact ih st1 st' ek nn h
    · cases hr : st.rootId with
      | none => rw [hr] at h; cases h
      | some rid =>
        simp only [hr] at h
        cases hDel : Delete fuel st rid e.key with
        | error er => rw [hDel] at h; cases h
        | ok p =>
          obtain ⟨st1, g⟩ := p
          rw [hDel] at h
          simp only [hDel]
          exact ih st1 st' ek nn h
    · exact ih st st' ek nn h

/-- Witness for the amended C8 theorem: on a concrete image whose log
holds one CREATE record, the untruncated replay succeeds, and the theorem
yields the surfaced error for the truncated variant over the same final
state. -/
theorem c8_loadlog_truncated_surfaces_witness :
    LoadLog 9 c8WSt [c8Entry] ekDemo nonceDemo false = .ok (c8WSt', none) ∧
    LoadLog 9 c8WSt [c8Entry] ekDemo nonceDemo true = .ok (c8WSt', some .ioErr) :=
  ⟨rfl, c8_loadlog_truncated_surfaces 9 [c8Entry] c8WSt c8WSt' ekDemo nonceDemo rfl⟩

/-! ### Read-only passes preserve the tree (for C6) -/

theorem writeFlush_preserves (st : St) (off : Int) (id : Nat) :
    Preserves st (writeFlush st off id) := by
  unfold writeFlush
  split
  · exact Preserves.refl st
  · exact ⟨rfl, rfl, rfl, rfl, fun _ _ hv => hv⟩

theorem engineEvict_preserves (st : St) : Preserves st (engineEvict st) := by
  unfold engineEvict
  split
  · exact Preserves.refl st
  · split
    · exact Preserves.refl st
    · refine Preserves.trans (?_ : Preserves st _)
        ⟨rfl, rfl, rfl, rfl, fun _ _ hv => hv⟩
      split
      · exact writeFlush_preserves st _ _
      · exact Preserves.refl st

theorem enginePut_preserves (st : St) (off : Int) (id : Nat) (d : Bool) :
    Preserves st (enginePut st off id d) := by
  unfold enginePut
  split
  · exact ⟨rfl, rfl, rfl, rfl, fun _ _ hv => hv⟩
  · refine Preserves.trans (?_ : Preserves st _)
      ⟨rfl, rfl, rfl, rfl, fun _ _ hv => hv⟩
    split
    · exact engineEvict_preserves st
    · exact Preserves.refl st

theorem alloc_preserves (st : St) (n : Node) : Preserves st (alloc st n).1 :=
  ⟨rfl, rfl, rfl, rfl, fun _ _ hv => findA_append_left hv⟩

theorem readNode_preserves (st : St) (off : Int) :
    Preserves st (readNode st off).1 := by
  unfold readNode
  split
  · exact ⟨rfl, rfl, rfl, rfl, fun _ _ hv => hv⟩
  · split
    · exact Preserves.refl st
    · exact Preserves.trans (alloc_preserves st _) (enginePut_preserves _ _ _ _)

/-- `search` never modifies the log, the root pointer, or any existing
node object (it only touches the cache and decodes fresh copies). -/
theorem search_readonly :
    ∀ (fuel : Nat) (st : St) (onid : Option Nat) (key : Key) (st' : St)
      (r : Option (Nat × Nat)),
      search fuel st onid key = .ok (st', r) → Preserves st st' := by
  intro fuel
  induction fuel with
  | zero =>
    intro st onid key st' r h
    simp [search] at h
  | succ f ih =>
    intro st onid key st' r h
    cases onid with
    | none =>
      simp only [search] at h
      cases h
      exact Preserves.refl st
    | some id =>
      simp only [search, bind, Except.bind] at h
      split at h
      · cases h
      · split at h
        · cases h
        · split at h
          case isTrue =>
            split at h
            · cases h
            · simp only [pure, Except.pure] at h
              split at h
              · cases h
                exact Preserves.refl st
              · split at h
                · cases h
                  exact Preserves.refl st
                · split at h
                  · cases h
                  · rename_i off hoff
                    split at h
                    · rename_i st2 hread
                      cases h
                      have hp := readNode_preserves st off
                      rw [hread] at hp
                      exact hp
                    · rename_i st2 cid hread
                      have hp := readNode_preserves st off
                      rw [hread] at hp
                      exact Preserves.trans hp (ih st2 (some cid) key st' r h)
          case isFalse =>
            simp only [pure, Except.pure, Bool.false_eq_true, if_false] at h
            split at h
            · cases h
              exact Preserves.refl st
            · split at h
              · cases h
              · rename_i off hoff
                split at h
                · rename_i st2 hread
                  cases h
                  have hp := readNode_preserves st off
                  rw [hread] at hp
                  exact hp
                · rename_i st2 cid hread
                  have hp := readNode_preserves st off
                  rw [hread] at hp
                  exact Preserves.trans hp (ih st2 (some cid) key st' r h)

/-- Claim C6 (amended): `Update` computes the stored key and point-searches
for it.  If absent, it fails with NotFound and neither the log nor any
node of the tree changes.  If present, the new value is sealed and
overwrites the entry's value in place (the holding node is equal except
for that one entry), the tree structure is untouched, and an UPDATE record
(not CREATE) is appended and fsynced — but the holding node is NOT marked
dirty and nothing is written to the node store: the cache and the database
file are exactly as the search left them. -/
theorem c6_update_amended (fuel : Nat) (st : St) (key : Key) (newV : Val)
    (ek nn : List Nat) :
    (∀ st₁, search fuel st st.rootId (st.hk key) = .ok (st₁, none) →
      Update fuel st key newV ek nn = .ok (st₁, some .notFound) ∧
        Preserves st st₁) ∧
    (∀ st₁ id i node kv,
      search fuel st st.rootId (st.hk key) = .ok (st₁, some (id, i)) →
      ek.length = 32 → nn.length = 24 →
      findA st₁.heap id = some node →
      node.keys.get? i = some (some kv) →
      ∃ st₂,
        Update fuel st key newV ek nn = .ok (st₂, none) ∧
        st₂.cache = st₁.cache ∧
        st₂.disk = st₁.disk ∧
        st₂.log = st₁.log ++ [⟨"UPDATE", key, some (.sealed ek nn newV)⟩] ∧
        st₂.rootId = st₁.rootId ∧
        findA st₂.heap id =
          some { node with
                 keys := node.keys.set i
                   (some { kv with value := .sealed ek nn newV }) }) := by
  constructor
  · intro st₁ hs
    refine ⟨?_, search_readonly fuel st st.rootId (st.hk key) st₁ none hs⟩
    simp only [Update, bind, Except.bind, hs]
  · intro st₁ id i node kv hs hek hnn hnode hkv
    have hi : i < node.keys.length := by
      rcases List.get?_eq_some.mp hkv with ⟨hl, _⟩
      exact hl
    have hidx : idxE node.keys (i : Int) = .ok (some kv) := by
      have h0 : (0 : Int) ≤ (i : Int) := Int.ofNat_nonneg i
      have ht : ((i : Int)).toNat = i := Int.toNat_ofNat i
      rw [idxE]
      rw [dif_pos (by rw [ht]; exact ⟨h0, hi⟩)]
      rcases List.get?_eq_some.mp hkv with ⟨hl, hg⟩
      simp only [ht]
      exact congrArg Except.ok (by simpa using hg)
    have hset : setE node.keys (i : Int) (some { kv with value := .sealed ek nn newV }) =
        .ok (node.keys.set i (some { kv with value := .sealed ek nn newV })) := by
      have ht : ((i : Int)).toNat = i := Int.toNat_ofNat i
      rw [setE, if_pos (by rw [ht]; exact ⟨Int.ofNat_nonneg i, hi⟩), ht]
    refine ⟨logOperation (heapSet st₁ id { node with keys := node.keys.set i (some { kv with value := .sealed ek nn newV }) }) "UPDATE" key (some (.sealed ek nn newV)) false, ?_, ?_, ?_, ?_, ?_, ?_⟩
    · simp only [Update, bind, Except.bind, hs]
      have h32 : ¬((32 : Nat) ≠ 32) := by norm_num
      have h24 : ¬((24 : Nat) ≠ 24) := by norm_num
      simp only [encrypt, hek, hnn, if_neg h32, if_neg h24]
      simp only [heapGetE, hnode, hidx, derefE, bind, Except.bind]
      rw [hset]
    · simp [logOperation, heapSet]
    · simp [logOperation, heapSet]
    · simp [logOperation, heapSet]
    · simp [logOperation, heapSet]
    · simp only [logOperation, heapSet]
      simp only [Bool.false_eq_true, if_false]
      exact findA_setA_self hnode

/-- Witness for the amended C6 theorem, at the one-entry fixture: an
absent key fails with NotFound leaving everything unchanged, and updating
the present key rewrites the entry in place, appends the UPDATE record,
and leaves cache and database file untouched. -/
theorem c6_update_amended_witness :
    Update 9 c6St [7] (.bytes [5]) ekDemo nonceDemo = .ok (c6St, some .notFound) ∧
    (∃ st₂, Update 9 c6St [1] (.bytes [77]) ekDemo nonceDemo = .ok (st₂, none) ∧
      st₂.cache = c6St.cache ∧ st₂.disk = c6St.disk ∧
      st₂.log = c6St.log ++
        [⟨"UPDATE", [1], some (.sealed ekDemo nonceDemo (.bytes [77]))⟩] ∧
      st₂.rootId = c6St.rootId ∧
      findA st₂.heap 0 = some { c6Root with keys := c6Root.keys.set 0 (some { (⟨[0, 1], .sealed ekDemo nonceDemo (.bytes [11])⟩ : KeyValue) with value := .sealed ekDemo nonceDemo (.bytes [77]) }) }) :=
  ⟨((c6_update_amended 9 c6St [7] (.bytes [5]) ekDemo nonceDemo).1 c6St rfl).1,
   (c6_update_amended 9 c6St [1] (.bytes [77]) ekDemo nonceDemo).2 c6St 0 0 c6Root
     ⟨[0, 1], .sealed ekDemo nonceDemo (.bytes [11])⟩ rfl rfl rfl rfl rfl⟩

/-! ### Cache lemmas (for C10) -/

theorem findA_isSome_mem [DecidableEq κ] (l : List (κ × α)) (k : κ) :
    (findA l k).isSome ↔ k ∈ l.map Prod.fst := by
  induction l with
  | nil => simp [findA]
  | cons p rest ih =>
    obtain ⟨k', a⟩ := p
    simp only [findA, List.map_cons, List.mem_cons]
    by_cases hk : k' = k
    · simp [hk]
    · rw [if_neg hk, ih]
      constructor
      · exact fun h => Or.inr h
      · rintro (h | h)
        · exact absurd h.symm hk
        · exact h

theorem setA_map_fst [DecidableEq κ] (l : List (κ × α)) (k : κ) (v : α) :
    (setA l k v).map Prod.fst = l.map Prod.fst := by
  induction l with
  | nil => rfl
  | cons p rest ih =>
    obtain ⟨k', a⟩ := p
    by_cases hk : k' = k
    · simp [setA, hk]
    · simp [setA, hk, ih]

theorem eraseA_map_fst [DecidableEq κ] (l : List (κ × α)) (k : κ) :
    (eraseA l k).map Prod.fst = (l.map Prod.fst).erase k := by
  induction l with
  | nil => rfl
  | cons p rest ih =>
    obtain ⟨k', a⟩ := p
    by_cases hk : k' = k
    · subst hk
      simp [eraseA, List.erase_cons_head]
    · simp only [eraseA, if_neg hk, List.map_cons]
      rw [List.erase_cons_tail, ih]
      simp [fun hh => hk (hh : k' = k)]

theorem eraseA_length [DecidableEq κ] {l : List (κ × α)} {k : κ} {v : α}
    (h : findA l k = some v) : (eraseA l k).length + 1 = l.length := by
  induction l with
  | nil => simp [findA] at h
  | cons p rest ih =>
    obtain ⟨k', a⟩ := p
    by_cases hk : k' = k
    · simp [eraseA, hk]
    · simp only [findA, if_neg hk] at h
      simp only [eraseA, if_neg hk, List.length_cons]
      rw [← ih h]

/-- Erasing the last element of a duplicate-free list is `dropLast`. -/
theorem erase_concat_of_nodup [DecidableEq κ] (ys : List κ) (x : κ)
    (hnd : (ys ++ [x]).Nodup) : (ys ++ [x]).erase x = ys := by
  have hnotmem : x ∉ ys := by
    intro hmem
    rcases List.nodup_append.mp hnd with ⟨_, _, hdisj⟩
    exact hdisj hmem (List.mem_singleton_self _)
  rw [List.erase_append_right _ hnotmem, List.erase_cons_head, List.append_nil]

theorem erase_getLast_of_nodup [DecidableEq κ] {l : List κ} (hnd : l.Nodup)
    (hne : l ≠ []) : l.erase (l.getLast hne) = l.dropLast := by
  obtain ⟨ys, x, hx⟩ : ∃ ys x, l = ys ++ [x] :=
    ⟨l.dropLast, l.getLast hne, (List.dropLast_append_getLast hne).symm⟩
  subst hx
  have hgl : (ys ++ [x]).getLast hne = x := List.getLast_append_singleton ys
  rw [hgl, erase_concat_of_nodup ys x hnd, List.dropLast_concat]

/-- `cacheEvict` on a well-formed nonempty cache removes exactly one
entry, keeping well-formedness, size, and the store-order correspondence. -/
theorem cacheEvict_wf {α : Type} {c : Cache α} (hwf : CacheWF c)
    (hne : c.order ≠ []) :
    CacheWF (cacheEvict c) ∧ (cacheEvict c).store.length + 1 = c.store.length ∧
    (cacheEvict c).size = c.size ∧
    (∀ k, k ∈ (cacheEvict c).order → k ∈ c.order) := by
  obtain ⟨hperm, hnd⟩ := hwf
  have hlast : c.order.getLast? = some (c.order.getLast hne) :=
    List.getLast?_eq_getLast c.order hne
  have hmemO : c.order.getLast hne ∈ c.order := List.getLast_mem hne
  have hmemS : c.order.getLast hne ∈ c.store.map Prod.fst :=
    hperm.mem_iff.mpr hmemO
  obtain ⟨⟨a, d⟩, hfind⟩ : ∃ e, findA c.store (c.order.getLast hne) = some e :=
    Option.isSome_iff_exists.mp ((findA_isSome_mem _ _).mpr hmemS)
  unfold cacheEvict
  simp only [hlast, hfind]
  refine ⟨⟨?_, ?_⟩, ?_, trivial, ?_⟩
  · rw [eraseA_map_fst]
    have h1 := hperm.erase (c.order.getLast hne)
    rwa [erase_getLast_of_nodup hnd hne] at h1
  · exact List.Nodup.sublist (List.dropLast_sublist c.order) hnd
  · exact eraseA_length hfind
  · intro k hk
    exact (List.dropLast_sublist c.order).subset hk

/-- One cache operation keeps well-formedness, the size field, and (when
the capacity is positive) the capacity bound. -/
theorem runOp_bound {α : Type} {c : Cache α} (op : CacheOp α) (hwf : CacheWF c)
    (hpos : 0 < c.size) (hb : (c.store.length : Int) ≤ c.size) :
    CacheWF (runOp c op) ∧ ((runOp c op).store.length : Int) ≤ c.size ∧
    (runOp c op).size = c.size := by
  obtain ⟨hperm, hnd⟩ := hwf
  have hlen : c.store.length = c.order.length := by
    have := hperm.length_eq
    simpa using this
  cases op with
  | get off =>
    simp only [runOp, cacheGet]
    cases hfind : findA c.store off with
    | none => exact ⟨⟨hperm, hnd⟩, hb, rfl⟩
    | some e =>
      have hmem : off ∈ c.order := by
        refine hperm.mem_iff.mp ?_
        exact (findA_isSome_mem _ _).mp (by simp [hfind])
      refine ⟨⟨?_, ?_⟩, hb, rfl⟩
      · exact hperm.trans (List.perm_cons_erase hmem)
      · exact List.Nodup.cons
          (fun hmem2 => (((hnd.mem_erase_iff).mp hmem2).1 rfl).elim)
          (hnd.erase off)
  | put off a d =>
    simp only [runOp, cachePut]
    cases hfind : findA c.store off with
    | some e =>
      have hmem : off ∈ c.order := by
        refine hperm.mem_iff.mp ?_
        exact (findA_isSome_mem _ _).mp (by simp [hfind])
      refine ⟨⟨?_, ?_⟩, ?_, rfl⟩
      · rw [setA_map_fst]
        exact hperm.trans (List.perm_cons_erase hmem)
      · exact List.Nodup.cons
          (fun hmem2 => (((hnd.mem_erase_iff).mp hmem2).1 rfl).elim)
          (hnd.erase off)
      · have : (setA c.store off (a, d)).length = c.store.length := by
          have := congrArg List.length (setA_map_fst c.store off (a, d))
          simpa using this
        rw [this]
        exact hb
    | none =>
      have hnotmemS : off ∉ c.store.map Prod.fst := by
        intro hmem
        have := (findA_isSome_mem c.store off).mpr hmem
        rw [hfind] at this
        cases this
      have hnotmemO : off ∉ c.order := fun hmem => hnotmemS (hperm.mem_iff.mpr hmem)
      by_cases hcond : 0 < c.size ∧ c.size ≤ (c.order.length : Int)
      · rw [if_pos hcond]
        have hneO : c.order ≠ [] := by
          intro hnil
          rw [hnil] at hcond
          simp at hcond
          omega
        obtain ⟨hwf', hlen', hsz', hsub'⟩ := cacheEvict_wf ⟨hperm, hnd⟩ hneO
        refine ⟨⟨?_, ?_⟩, ?_, hsz'⟩
        · simp only [List.map_cons]
          exact (hwf'.1.cons off)
        · exact List.Nodup.cons (fun hmem => hnotmemO (hsub' off hmem)) hwf'.2
        · simp only [List.length_cons]
          omega
      · rw [if_neg hcond]
        have hlt : (c.order.length : Int) < c.size := by
          rcases not_and_or.mp hcond with h1 | h1
          · omega
          · omega
        refine ⟨⟨?_, ?_⟩, ?_, rfl⟩
        · simp only [List.map_cons]
          exact hperm.cons off
        · exact List.Nodup.cons hnotmemO hnd
        · simp only [List.length_cons]
          omega

/-- Sequences of operations from a well-formed bounded cache stay within
the capacity. -/
theorem runOps_bound {α : Type} :
    ∀ (ops : List (CacheOp α)) (c : Cache α), CacheWF c → 0 < c.size →
      (c.store.length : Int) ≤ c.size →
      CacheWF (runOps c ops) ∧
      ((runOps c ops).store.length : Int) ≤ c.size ∧
      (runOps c ops).size = c.size := by
  intro ops
  induction ops with
  | nil => intro c hwf _ hb; exact ⟨hwf, hb, rfl⟩
  | cons op rest ih =>
    intro c hwf hpos hb
    obtain ⟨hwf', hb', hsz'⟩ := runOp_bound op hwf hpos hb
    have := ih (runOp c op) hwf' (hsz' ▸ hpos) (hsz' ▸ hb')
    simp only [runOps] at this ⊢
    rw [List.foldl_cons]
    obtain ⟨h1, h2, h3⟩ := this
    exact ⟨h1, hsz' ▸ h2, hsz' ▸ h3⟩

/-- With a non-positive capacity, no operation ever evicts or flushes, and
every offset ever put stays resident. -/
theorem runOps_no_evict {α : Type} :
    ∀ (ops : List (CacheOp α)) (c : Cache α), c.size ≤ 0 →
      (runOps c ops).flushes = c.flushes ∧
      (runOps c ops).size = c.size ∧
      ∀ off, (findA (runOps c ops).store off).isSome ↔
        ((findA c.store off).isSome ∨ off ∈ ops.filterMap putOffset) := by
  intro ops
  induction ops with
  | nil =>
    intro c hsz
    refine ⟨rfl, rfl, fun off => ?_⟩
    simp [runOps]
  | cons op rest ih =>
    intro c hsz
    have hstep : (runOp c op).flushes = c.flushes ∧ (runOp c op).size = c.size ∧
        ∀ off, (findA (runOp c op).store off).isSome ↔
          ((findA c.store off).isSome ∨ putOffset op = some off) := by
      cases op with
      | get o =>
        simp only [runOp, cacheGet]
        cases hfind : findA c.store o with
        | none => simp [putOffset]
        | some e => simp [putOffset]
      | put o a d =>
        simp only [runOp, cachePut]
        cases hfind : findA c.store o with
        | some e =>
          refine ⟨rfl, rfl, fun off => ?_⟩
          simp only [putOffset, Option.some_inj]
          constructor
          · intro hs
            by_cases ho : o = off
            · exact Or.inr ho
            · left
              rw [findA_setA_ne (fun hh => ho hh.symm)] at hs
              exact hs
          · intro hs
            by_cases ho : o = off
            · subst ho
              simp [findA_setA_self hfind]
            · rw [findA_setA_ne (fun hh => ho hh.symm)]
              rcases hs with hs | hs
              · exact hs
              · exact absurd hs ho
        | none =>
          have hcond : ¬(0 < c.size ∧ c.size ≤ (c.order.length : Int)) := by
            intro ⟨h1, _⟩
            omega
          rw [if_neg hcond]
          refine ⟨rfl, rfl, fun off => ?_⟩
          simp only [putOffset, Option.some_inj, findA]
          by_cases ho : o = off
          · subst ho
            simp [hfind]
          · simp [ho]
    obtain ⟨hf1, hs1, hm1⟩ := hstep
    have hrest := ih (runOp c op) (hs1 ▸ hsz)
    obtain ⟨hf2, hs2, hm2⟩ := hrest
    simp only [runOps] at hf2 hs2 hm2 ⊢
    rw [List.foldl_cons]
    refine ⟨hf2.trans hf1, hs2.trans hs1, fun off => ?_⟩
    rw [hm2 off, hm1 off, List.filterMap_cons]
    cases hpo : putOffset op with
    | none =>
      simp [or_assoc]
    | some o =>
      simp only [List.mem_cons, Option.some_inj]
      constructor
      · rintro ((h | h) | h)
        · exact Or.inl h
        · exact Or.inr (Or.inl h.symm)
        · exact Or.inr (Or.inr h)
      · rintro (h | h | h)
        · exact Or.inl (Or.inl h)
        · exact Or.inl (Or.inr h.symm)
        · exact Or.inr h

/-- Claim C10: for a cache of capacity N > 0, after every sequence of Get
and Put operations the cache holds at most N entries; an eviction invokes
the flush callback exactly when the evicted entry is dirty; and for
capacity N ≤ 0, Put never evicts and never flushes, so every offset ever
put remains resident (the cache grows without bound). -/
theorem c10_cache_capacity {α : Type} (N : Int) (ops : List (CacheOp α)) :
    (0 < N → ((runOps (NewCache α N) ops).store.length : Int) ≤ N) ∧
    (∀ (c : Cache α) (off : Int) (a : α) (dirty : Bool),
      c.order.getLast? = some off → findA c.store off = some (a, dirty) →
      (cacheEvict c).flushes =
        (if dirty then c.flushes ++ [(off, a)] else c.flushes)) ∧
    (N ≤ 0 → (runOps (NewCache α N) ops).flushes = [] ∧
      ∀ off, (findA (runOps (NewCache α N) ops).store off).isSome ↔
        off ∈ ops.filterMap putOffset) := by
  refine ⟨?_, ?_, ?_⟩
  · intro hpos
    have hwf : CacheWF (NewCache α N) := ⟨List.Perm.refl _, List.nodup_nil⟩
    exact (runOps_bound ops (NewCache α N) hwf hpos
      (by simp only [NewCache, List.length_nil, Int.ofNat_zero]; omega)).2.1
  · intro c off a dirty h1 h2
    unfold cacheEvict
    simp only [h1, h2]
  · intro hneg
    have h := runOps_no_evict ops (NewCache α N) hneg
    refine ⟨by simpa [NewCache] using h.1, fun off => ?_⟩
    have := h.2.2 off
    simpa [NewCache, findA] using this

/-- Witness for C10 at capacity 1 (bound and dirty-eviction flush) and
capacity 0 (no flushes, unbounded residency). -/
theorem c10_cache_capacity_witness :
    ((runOps (NewCache Nat 1)
        [CacheOp.put 5 0 true, CacheOp.put 6 1 false]).store.length : Int) ≤ 1 ∧
    (cacheEvict (runOps (NewCache Nat 1) [CacheOp.put 5 0 true])).flushes =
      [(5, 0)] ∧
    (runOps (NewCache Nat 0)
        [CacheOp.put 5 0 true, CacheOp.put 6 1 false]).flushes = [] ∧
    ((findA (runOps (NewCache Nat 0)
        [CacheOp.put 5 0 true, CacheOp.put 6 1 false]).store 6).isSome ↔
      6 ∈ ([CacheOp.put 5 0 true,
            CacheOp.put 6 1 false].filterMap (putOffset (α := Nat)))) :=
  ⟨(c10_cache_capacity 1 [CacheOp.put 5 0 true, CacheOp.put 6 1 false]).1
      (by decide),
   (c10_cache_capacity (α := Nat) 1 []).2.1
      (runOps (NewCache Nat 1) [CacheOp.put 5 0 true]) 5 0 true rfl rfl,
   ((c10_cache_capacity 0 [CacheOp.put 5 0 true, CacheOp.put 6 1 false]).2.2
      (by decide)).1,
   ((c10_cache_capacity 0 [CacheOp.put 5 0 true, CacheOp.put 6 1 false]).2.2
      (by decide)).2 6⟩

/-! ### `readNode` under the engine invariant (for C9) -/

theorem findA_some_mem [DecidableEq κ] {l : List (κ × α)} {k : κ} {v : α}
    (h : findA l k = some v) : (k, v) ∈ l := by
  induction l with
  | nil => simp [findA] at h
  | cons p rest ih =>
    obtain ⟨k', a⟩ := p
    by_cases hk : k' = k
    · subst hk
      simp only [findA, if_pos rfl] at h
      cases h
      exact List.mem_cons_self _ _
    · simp only [findA, if_neg hk] at h
      exact List.mem_cons_of_mem _ (ih h)

theorem findA_setA_value [DecidableEq κ] {l : List (κ × α)} {k : κ} {v : α}
    (h : findA l k = some v) : ∀ k', findA (setA l k v) k' = findA l k' := by
  intro k'
  by_cases hk : k' = k
  · subst hk
    rw [findA_setA_self h, h]
  · exact findA_setA_ne hk

theorem eraseA_sublist [DecidableEq κ] (l : List (κ × α)) (k : κ) :
    (eraseA l k).Sublist l := by
  induction l with
  | nil => simp [eraseA]
  | cons p rest ih =>
    obtain ⟨k', a⟩ := p
    by_cases hk : k' = k
    · simp only [eraseA, if_pos hk]
      exact List.sublist_cons_self _ _
    · simp only [eraseA, if_neg hk]
      exact ih.cons₂ _

/-- Under `HeapWF`, the allocator id is not yet bound. -/
theorem heap_fresh {st : St} (hwf : HeapWF st) :
    findA st.heap st.nextId = none := by
  cases hfind : findA st.heap st.nextId with
  | none => rfl
  | some v =>
    have := hwf _ (findA_some_mem hfind)
    simp at this

theorem mem_setA [DecidableEq κ] {l : List (κ × α)} {k : κ} {v : α} {p : κ × α}
    (h : p ∈ setA l k v) : p ∈ l ∨ p = (k, v) := by
  induction l with
  | nil => simp [setA] at h
  | cons q rest ih =>
    obtain ⟨k', a⟩ := q
    by_cases hk : k' = k
    · simp only [setA, if_pos hk] at h
      rcases List.mem_cons.mp h with h | h
      · right
        rw [h, hk]
      · left
        exact List.mem_cons_of_mem _ h
    · simp only [setA, if_neg hk] at h
      rcases List.mem_cons.mp h with h | h
      · left
        exact h ▸ List.mem_cons_self _ _
      · rcases ih h with h2 | h2
        · left
          exact List.mem_cons_of_mem _ h2
        · right
          exact h2

/-- `engineEvict` keeps cache faithfulness and changes the database file
at most by rewriting an offset with the value it already decodes to. -/
theorem engineEvict_faithful {st : St} (hcf : CacheFaithful st) :
    CacheFaithful (engineEvict st) ∧ (engineEvict st).heap = st.heap ∧
    (engineEvict st).nextId = st.nextId ∧
    (∀ o, findA (engineEvict st).disk o = findA st.disk o) ∧
    (engineEvict st).log = st.log := by
  cases hlast : st.cache.order.getLast? with
  | none =>
    have hee : engineEvict st = st := by
      unfold engineEvict
      rw [hlast]
    rw [hee]
    exact ⟨hcf, rfl, rfl, fun o => rfl, rfl⟩
  | some off =>
    cases hfind : findA st.cache.store off with
    | none =>
      have hee : engineEvict st = st := by
        unfold engineEvict
        simp only [hlast, hfind]
      rw [hee]
      exact ⟨hcf, rfl, rfl, fun o => rfl, rfl⟩
    | some p =>
      obtain ⟨id, dirty⟩ := p
      obtain ⟨m, hdo, hho⟩ := hcf off id dirty (findA_some_mem hfind)
      cases dirty with
      | false =>
        have hee : engineEvict st =
            { st with cache := { st.cache with
                order := st.cache.order.dropLast
                store := eraseA st.cache.store off } } := by
          unfold engineEvict
          simp only [hlast, hfind, Bool.false_eq_true, if_false]
        rw [hee]
        refine ⟨?_, rfl, rfl, fun o => rfl, rfl⟩
        intro o i d hmem
        exact hcf o i d ((eraseA_sublist _ _).subset hmem)
      | true =>
        have hw : writeFlush st off id = { st with disk := setA st.disk off m } := by
          unfold writeFlush
          rw [hho]
        have hee : engineEvict st =
            { (writeFlush st off id) with cache := { (writeFlush st off id).cache with
                order := (writeFlush st off id).cache.order.dropLast
                store := eraseA (writeFlush st off id).cache.store off } } := by
          unfold engineEvict
          simp only [hlast, hfind, eq_self_iff_true, if_true]
        rw [hee, hw]
        have hext : ∀ o, findA (setA st.disk off m) o = findA st.disk o :=
          findA_setA_value hdo
        refine ⟨?_, rfl, rfl, hext, rfl⟩
        intro o i d hmem
        obtain ⟨m', hdo', hho'⟩ := hcf o i d ((eraseA_sublist _ _).subset hmem)
        exact ⟨m', (hext o).trans hdo', hho'⟩

/-- `enginePut` of a clean, not-yet-cached entry whose object matches its
snapshot keeps cache faithfulness and only touches the cache (the database
file stays extensionally the same). -/
theorem enginePut_clean {st : St} {off : Int} {id : Nat} {n : Node}
    (hcf : CacheFaithful st) (hdisk : findA st.disk off = some n)
    (hheap : findA st.heap id = some n) :
    CacheFaithful (enginePut st off id false) ∧
    (enginePut st off id false).heap = st.heap ∧
    (enginePut st off id false).nextId = st.nextId ∧
    (∀ o, findA (enginePut st off id false).disk o = findA st.disk o) ∧
    (enginePut st off id false).log = st.log := by
  unfold enginePut
  split
  · refine ⟨?_, rfl, rfl, fun o => rfl, rfl⟩
    intro o i d hmem
    rcases mem_setA hmem with h | h
    · exact hcf o i d h
    · cases h
      exact ⟨n, hdisk, hheap⟩
  · split
    · obtain ⟨hcf', hheap', hnid', hdisk', hlog'⟩ := engineEvict_faithful hcf
      refine ⟨?_, hheap', hnid', hdisk', hlog'⟩
      intro o i d hmem
      rcases List.mem_cons.mp hmem with h | h
      · cases h
        refine ⟨n, ?_, ?_⟩
        · rw [hdisk' off]
          exact hdisk
        · rw [hheap']
          exact hheap
      · exact hcf' o i d h
    · refine ⟨?_, rfl, rfl, fun o => rfl, rfl⟩
      intro o i d hmem
      rcases List.mem_cons.mp hmem with h | h
      · cases h
        exact ⟨n, hdisk, hheap⟩
      · exact hcf o i d h

/-- `readNode` at an offset present in the database file, under the engine
invariant: it succeeds and hands back an object equal to the snapshot,
preserving the invariant, the file, the log, and every existing object. -/
theorem readNode_faithful {st : St} {off : Int} {n : Node}
    (hinv : EngineInv st) (hd : findA st.disk off = some n) :
    ∃ st' id, readNode st off = (st', some id) ∧
      findA st'.heap id = some n ∧ EngineInv st' ∧
      (∀ o, findA st'.disk o = findA st.disk o) ∧
      (∀ j v, findA st.heap j = some v → findA st'.heap j = some v) ∧
      st'.log = st.log := by
  obtain ⟨hcf, hwf⟩ := hinv
  cases hfind : findA st.cache.store off with
  | some p =>
    obtain ⟨id, d⟩ := p
    obtain ⟨m, hdo, hho⟩ := hcf off id d (findA_some_mem hfind)
    have hmn : m = n := by
      rw [hdo] at hd
      exact Option.some_inj.mp hd
    subst hmn
    refine ⟨{ st with cache := { st.cache with
        order := off :: st.cache.order.erase off } },
      id, ?_, hho, ⟨?_, hwf⟩, fun o => rfl, fun j v hv => hv, rfl⟩
    · simp only [readNode, cacheGet, hfind]
    · intro o i dd hmem
      exact hcf o i dd hmem
  | none =>
    have hstep : readNode st off =
        (enginePut { st with
          heap := st.heap ++ [(st.nextId, n)]
          nextId := st.nextId + 1 } off st.nextId false, some st.nextId) := by
      simp only [readNode, cacheGet, hfind, hd, alloc]
    set st₂ : St := { st with
      heap := st.heap ++ [(st.nextId, n)]
      nextId := st.nextId + 1 } with hst₂
    have hcf₂ : CacheFaithful st₂ := by
      intro o i d hmem
      obtain ⟨m, hdo, hho⟩ := hcf o i d hmem
      exact ⟨m, hdo, findA_append_left hho⟩
    have hdisk₂ : findA st₂.disk off = some n := hd
    have hheap₂ : findA st₂.heap st.nextId = some n :=
      findA_fresh_append (heap_fresh hwf)
    obtain ⟨hcf₃, hheap₃, hnid₃, hdisk₃, hlog₃⟩ :=
      enginePut_clean hcf₂ hdisk₂ hheap₂
    refine ⟨_, st.nextId, hstep, ?_, ⟨hcf₃, ?_⟩, ?_, ?_, hlog₃⟩
    · rw [hheap₃]
      exact hheap₂
    · intro p hp
      rw [hheap₃] at hp
      rw [hnid₃]
      show p.1 < st.nextId + 1
      rcases List.mem_append.mp hp with h | h
      · exact Nat.lt_succ_of_lt (hwf p h)
      · rcases List.mem_singleton.mp h with rfl
        exact Nat.lt_succ_self _
    · exact hdisk₃
    · intro j v hv
      rw [hheap₃]
      exact findA_append_left hv

/-- The byte-wise key order is irreflexive. -/
theorem keyLt_irrefl (k : Key) : keyLt k k = false := by
  induction k with
  | nil => rfl
  | cons a as ih =>
    show (if a < a then true else if a < a then false else keyLt as as) = false
    rw [if_neg (lt_irrefl a), if_neg (lt_irrefl a)]
    exact ih

/-- `ascending` is exactly pairwise strict order. -/
theorem ascending_pairwise (l : List Key) (h : ascending l = true) :
    l.Pairwise (fun a b => keyLt a b = true) := by
  induction l with
  | nil => exact List.Pairwise.nil
  | cons a rest ih =>
    simp only [ascending, Bool.and_eq_true, List.all_eq_true] at h
    exact List.Pairwise.cons (fun b hb => h.1 b hb) (ih h.2)

/-- An `ascending` list has no duplicate keys (irreflexivity suffices). -/
theorem ascending_nodup (l : List Key) (h : ascending l = true) : l.Nodup := by
  refine (ascending_pairwise l h).imp ?_
  intro a b hlt heq
  rw [heq, keyLt_irrefl] at hlt
  exact Bool.noConfusion hlt

/-- The pre-order enumeration and the in-order enumeration of the same
disk image are permutations of each other, at every fuel (companion loop
statement for the child walks, with the pending own-keys interleaved). -/
theorem preorder_perm_inorder : ∀ fuel : Nat,
    (∀ (d : List (Int × Node)) (n : Node) (l m : List Key),
      preKeysD fuel d n = .ok l → inorderKeysD fuel d n = .ok m → l.Perm m) ∧
    (∀ (d : List (Int × Node)) (children : List Int) (i r : Nat)
        (own ks ms : List Key),
      preKids fuel d children i r = .ok ks →
      inKids fuel d children i r own = .ok ms → (own ++ ks).Perm ms) := by
  intro fuel
  induction fuel with
  | zero =>
    constructor
    · intro d n l m hp _
      exact Except.noConfusion hp
    · intro d children i r own ks ms hp _
      exact Except.noConfusion hp
  | succ f ih =>
    obtain ⟨ihT, ihK⟩ := ih
    constructor
    · intro d n l m hp hm
      simp only [preKeysD] at hp
      simp only [inorderKeysD] at hm
      cases hemit : emitKeys n.keys 0 n.numKeys.toNat with
      | error e =>
        rw [hemit] at hp
        simp only [bind, Except.bind] at hp
        exact Except.noConfusion hp
      | ok own =>
        rw [hemit] at hp hm
        simp only [bind, Except.bind] at hp hm
        by_cases hleaf : n.isLeaf = true
        · rw [if_pos hleaf] at hp hm
          injection hp with hp1
          injection hm with hm1
          subst hp1
          subst hm1
          exact List.Perm.refl _
        · rw [if_neg hleaf] at hp hm
          cases hkids : preKids f d n.children 0
              (if n.numKeys < 0 then 0 else n.numKeys.toNat + 1) with
          | error e =>
            rw [hkids] at hp
            simp only [bind, Except.bind] at hp
            exact Except.noConfusion hp
          | ok ks =>
            rw [hkids] at hp
            simp only [bind, Except.bind] at hp
            injection hp with hp1
            subst hp1
            exact ihK d n.children 0 _ own ks m hkids hm
    · intro d children i r own ks ms hp hm
      simp only [preKids] at hp
      simp only [inKids] at hm
      cases r with
      | zero =>
        injection hp with hp1
        injection hm with hm1
        subst hp1
        subst hm1
        rw [List.append_nil]
      | succ r =>
        cases hoff : idxE children (i : Int) with
        | error e =>
          rw [hoff] at hp
          simp only [bind, Except.bind] at hp
          exact Except.noConfusion hp
        | ok off =>
          rw [hoff] at hp hm
          simp only [bind, Except.bind] at hp hm
          cases hfd : findA d off with
          | none =>
            simp only [hfd] at hp
            exact Except.noConfusion hp
          | some cn =>
            simp only [hfd] at hp hm
            cases hc : preKeysD f d cn with
            | error e =>
              rw [hc] at hp
              simp only [bind, Except.bind] at hp
              exact Except.noConfusion hp
            | ok ks₁ =>
              rw [hc] at hp
              simp only [bind, Except.bind] at hp
              cases hrest : preKids f d children (i + 1) r with
              | error e =>
                rw [hrest] at hp
                simp only [bind, Except.bind] at hp
                exact Except.noConfusion hp
              | ok rest =>
                rw [hrest] at hp
                simp only [bind, Except.bind, Except.ok.injEq] at hp
                cases hcm : inorderKeysD f d cn with
                | error e =>
                  rw [hcm] at hm
                  simp only [bind, Except.bind] at hm
                  exact Except.noConfusion hm
                | ok mks =>
                  rw [hcm] at hm
                  simp only [bind, Except.bind] at hm
                  have hperm1 : ks₁.Perm mks := ihT d cn ks₁ mks hc hcm
                  cases own with
                  | nil =>
                    cases hr2 : inKids f d children (i + 1) r [] with
                    | error e =>
                      simp only [hr2, bind, Except.bind] at hm
                      exact Except.noConfusion hm
                    | ok rest' =>
                      simp only [hr2, bind, Except.bind, Except.ok.injEq] at hm
                      have hperm2 := ihK d children (i + 1) r [] rest rest' hrest hr2
                      rw [List.nil_append] at hperm2
                      subst hp
                      subst hm
                      rw [List.nil_append]
                      exact hperm1.append hperm2
                  | cons k ownRest =>
                    cases hr2 : inKids f d children (i + 1) r ownRest with
                    | error e =>
                      simp only [hr2, bind, Except.bind] at hm
                      exact Except.noConfusion hm
                    | ok rest' =>
                      simp only [hr2, bind, Except.bind, Except.ok.injEq] at hm
                      have hperm2 := ihK d children (i + 1) r ownRest rest rest' hrest hr2
                      subst hp
                      subst hm
                      refine List.Perm.trans ?_ List.perm_middle.symm
                      show ((k :: ownRest) ++ (ks₁ ++ rest)).Perm (k :: (mks ++ rest'))
                      rw [List.cons_append]
                      exact List.Perm.cons k
                        ((List.perm_append_comm_assoc ownRest ks₁ rest).trans
                          (hperm1.append hperm2))

/-- Under the engine invariant, `traverse` agrees with the pure pre-order
enumeration of any disk image extensionally equal to the engine's file:
whenever the enumeration succeeds, `traverse` succeeds with the same key
list from a state that keeps the invariant, the file contents, every
existing object and the log (companion loop statement for `travKids`,
which extends its accumulator). -/
theorem traverse_agrees : ∀ fuel : Nat,
    (∀ (st : St) (d : List (Int × Node)) (id : Nat) (n : Node) (l : List Key),
      EngineInv st → (∀ o, findA d o = findA st.disk o) →
      findA st.heap id = some n → preKeysD fuel d n = .ok l →
      ∃ st', traverse fuel st id = .ok (st', l) ∧ EngineInv st' ∧
        (∀ o, findA st'.disk o = findA st.disk o) ∧
        (∀ j v, findA st.heap j = some v → findA st'.heap j = some v) ∧
        st'.log = st.log) ∧
    (∀ (st : St) (d : List (Int × Node)) (children : List Int) (i r : Nat)
        (acc ks : List Key),
      EngineInv st → (∀ o, findA d o = findA st.disk o) →
      preKids fuel d children i r = .ok ks →
      ∃ st', travKids fuel st children i r acc = .ok (st', acc ++ ks) ∧
        EngineInv st' ∧
        (∀ o, findA st'.disk o = findA st.disk o) ∧
        (∀ j v, findA st.heap j = some v → findA st'.heap j = some v) ∧
        st'.log = st.log) := by
  intro fuel
  induction fuel with
  | zero =>
    constructor
    · intro st d id n l _ _ _ hp
      exact Except.noConfusion hp
    · intro st d children i r acc ks _ _ hp
      exact Except.noConfusion hp
  | succ f ih =>
    obtain ⟨ihT, ihK⟩ := ih
    constructor
    · intro st d id n l hinv hext hheap hp
      have hget : heapGetE st id = .ok n := by
        simp only [heapGetE, hheap]
      simp only [preKeysD] at hp
      cases hemit : emitKeys n.keys 0 n.numKeys.toNat with
      | error e =>
        rw [hemit] at hp
        simp only [bind, Except.bind] at hp
        exact Except.noConfusion hp
      | ok own =>
        rw [hemit] at hp
        simp only [bind, Except.bind] at hp
        by_cases hleaf : n.isLeaf = true
        · rw [if_pos hleaf] at hp
          injection hp with hp1
          subst hp1
          refine ⟨st, ?_, hinv, fun o => rfl, fun j v hv => hv, rfl⟩
          simp only [traverse, hget, bind, Except.bind, hemit, if_pos hleaf]
        · rw [if_neg hleaf] at hp
          cases hkids : preKids f d n.children 0
              (if n.numKeys < 0 then 0 else n.numKeys.toNat + 1) with
          | error e =>
            rw [hkids] at hp
            simp only [bind, Except.bind] at hp
            exact Except.noConfusion hp
          | ok ks =>
            rw [hkids] at hp
            simp only [bind, Except.bind] at hp
            injection hp with hp1
            subst hp1
            obtain ⟨st', htk, hinv', hext', hpres', hlog'⟩ :=
              ihK st d n.children 0
                (if n.numKeys < 0 then 0 else n.numKeys.toNat + 1) own ks
                hinv hext hkids
            refine ⟨st', ?_, hinv', hext', hpres', hlog'⟩
            simp only [traverse, hget, bind, Except.bind, hemit, if_neg hleaf]
            exact htk
    · intro st d children i r acc ks hinv hext hp
      simp only [preKids] at hp
      cases r with
      | zero =>
        injection hp with hp1
        subst hp1
        refine ⟨st, ?_, hinv, fun o => rfl, fun j v hv => hv, rfl⟩
        simp only [travKids, List.append_nil]
      | succ r =>
        cases hoff : idxE children (i : Int) with
        | error e =>
          rw [hoff] at hp
          simp only [bind, Except.bind] at hp
          exact Except.noConfusion hp
        | ok off =>
          rw [hoff] at hp
          simp only [bind, Except.bind] at hp
          cases hfd : findA d off with
          | none =>
            simp only [hfd] at hp
            exact Except.noConfusion hp
          | some cn =>
            simp only [hfd] at hp
            cases hc : preKeysD f d cn with
            | error e =>
              rw [hc] at hp
              simp only [bind, Except.bind] at hp
              exact Except.noConfusion hp
            | ok ks₁ =>
              rw [hc] at hp
              simp only [bind, Except.bind] at hp
              cases hrest : preKids f d children (i + 1) r with
              | error e =>
                rw [hrest] at hp
                simp only [bind, Except.bind] at hp
                exact Except.noConfusion hp
              | ok rest =>
                rw [hrest] at hp
                simp only [bind, Except.bind, Except.ok.injEq] at hp
                have hsd : findA st.disk off = some cn :=
                  (hext off).symm.trans hfd
                obtain ⟨st₁, cid, hrn, hheap₁, hinv₁, hext₁, hpres₁, hlog₁⟩ :=
                  readNode_faithful hinv hsd
                have hext₁d : ∀ o, findA d o = findA st₁.disk o :=
                  fun o => (hext o).trans (hext₁ o).symm
                obtain ⟨st₂, htr, hinv₂, hext₂, hpres₂, hlog₂⟩ :=
                  ihT st₁ d cid cn ks₁ hinv₁ hext₁d hheap₁ hc
                have hext₂d : ∀ o, findA d o = findA st₂.disk o :=
                  fun o => (hext₁d o).trans (hext₂ o).symm
                obtain ⟨st₃, htk, hinv₃, hext₃, hpres₃, hlog₃⟩ :=
                  ihK st₂ d children (i + 1) r (acc ++ ks₁) rest hinv₂ hext₂d hrest
                refine ⟨st₃, ?_, hinv₃, ?_, ?_, ?_⟩
                · simp only [travKids, hoff, bind, Except.bind, hrn, htr, htk]
                  rw [List.append_assoc, hp]
                · intro o
                  rw [hext₃ o, hext₂ o, hext₁ o]
                · intro j v hv
                  exact hpres₃ j v (hpres₂ j v (hpres₁ j v hv))
                · rw [hlog₃, hlog₂, hlog₁]

/-- C9 (amended): on an engine satisfying the invariant, `ListKeys` returns
exactly the pre-order enumeration of the tree on disk — each node's keys
before its children's — and that listing is a permutation of the in-order
(sorted) enumeration: every stored key appears exactly once (no duplicates,
matching length), but in pre-order rather than ascending order. -/
theorem c9_amended {fuel : Nat} {st : St} {rid : Nat} {root : Node}
    {l m : List Key}
    (hinv : EngineInv st) (hroot : st.rootId = some rid)
    (hheap : findA st.heap rid = some root)
    (hpre : preKeysD fuel st.disk root = .ok l)
    (hino : inorderKeysD fuel st.disk root = .ok m)
    (hasc : ascending m = true) :
    ∃ st', ListKeys fuel st = .ok (st', l) ∧ l.Perm m ∧ l.Nodup ∧
      l.length = m.length := by
  obtain ⟨st', htr, _, _, _, _⟩ :=
    (traverse_agrees fuel).1 st st.disk rid root l hinv (fun o => rfl) hheap hpre
  have hperm : l.Perm m :=
    (preorder_perm_inorder fuel).1 st.disk root l m hpre hino
  refine ⟨st', ?_, hperm, ?_, hperm.length_eq⟩
  · simp only [ListKeys, hroot]
    exact htr
  · exact hperm.nodup_iff.mpr (ascending_nodup m hasc)

/-- The amended C9 statement holds at the two-leaf fixture: `ListKeys`
yields the pre-order `[[2], [1], [3]]`, a duplicate-free permutation of the
ascending in-order listing `[[1], [2], [3]]`. -/
theorem c9_amended_witness :
    ∃ st', ListKeys 9 c9St = .ok (st', [[2], [1], [3]]) ∧
      List.Perm ([[2], [1], [3]] : List Key) [[1], [2], [3]] ∧
      List.Nodup ([[2], [1], [3]] : List Key) ∧
      List.length ([[2], [1], [3]] : List Key) =
        List.length ([[1], [2], [3]] : List Key) :=
  c9_amended
    (⟨fun off id d h => absurd h (List.not_mem_nil _),
      fun p hp => by rcases List.mem_singleton.mp hp with rfl; exact Nat.one_pos⟩ :
      EngineInv c9St)
    (rfl : c9St.rootId = some 0)
    (rfl : findA c9St.heap 0 = some c9Root)
    (rfl : preKeysD 9 c9St.disk c9Root = Except.ok [[2], [1], [3]])
    (rfl : inorderKeysD 9 c9St.disk c9Root = Except.ok [[1], [2], [3]])
    (rfl : ascending [[1], [2], [3]] = true)

end KayveeDB
